import Mathlib

/-!
Verification development for the TOML parsing core of this repository
(crates/toml_edit): keys, datetimes, inline tables and their assembly.

The parsers are shallowly embedded over `List Char`.  A parser takes the
remaining input and returns `Except PFail (result × rest)`; `PFail` records
whether the failure is recoverable (nom8 `Err::Error`, which alternation
backtracks over) or not (nom8 `Err::Failure`, produced by `cut`), together
with the optional semantic error (`CustomError`) attached by `map_res`.
Recursive grammars thread an explicit fuel argument so that every definition
is executable and reduces in the kernel.
-/

namespace Toml

/-- Single quote character, `%x27`. -/
def sq : Char := Char.ofNat 39

/-- Double quote character, `%x22`. -/
def dq : Char := Char.ofNat 34

/-- Backslash character, `%x5C`. -/
def bsl : Char := Char.ofNat 92

/-- Tab character, `%x09`. -/
def tab : Char := Char.ofNat 9

/-- Line feed character, `%x0A`. -/
def lf : Char := Char.ofNat 10

/-- Carriage return character, `%x0D`. -/
def cr : Char := Char.ofNat 13

/-- Semantic errors of the parser, from `parser/errors.rs` (`CustomError`):
duplicate keys, extending through a non-table value, out-of-range numerals
and the recursion ceiling.  `extendWrongType` carries the offending key
path, the index of the bad segment and the type name actually found, as in
`CustomError::extend_wrong_type`. -/
inductive CustomError where
  | duplicateKey (key : List Char)
  | extendWrongType (path : List (List Char)) (i : Nat) (actual : List Char)
  | outOfRange
  | recursionLimitExceeded
deriving DecidableEq

/-- A parser failure: `recoverable` is nom8 `Err::Error` (alternation may
backtrack), `recoverable := false` is `Err::Failure` (produced by `cut`);
`custom` is the semantic error attached by `map_res`, when any. -/
structure PFail where
  recoverable : Bool
  custom : Option CustomError
deriving DecidableEq

/-- Parser results: a value and the unconsumed remainder, or a failure. -/
abbrev PRes (α : Type) := Except PFail (α × List Char)

/-- A recoverable grammar mismatch with no semantic payload. -/
def gerr {α : Type} : PRes α := .error ⟨true, none⟩

/-- Sequencing of parser results, the combinator chaining of nom8. -/
def pbind {α β : Type} (r : PRes α) (f : α → List Char → PRes β) : PRes β :=
  match r with
  | .ok (a, rest) => f a rest
  | .error e => .error e

/-- nom8 `cut`: converts a recoverable failure into an unrecoverable one. -/
def pcut {α : Type} : PRes α → PRes α
  | .ok a => .ok a
  | .error e => .error ⟨false, e.custom⟩

/-- Expect one literal character. -/
def chP (c : Char) : List Char → PRes Unit
  | [] => gerr
  | x :: rest => if x = c then .ok ((), rest) else gerr

/-- nom8 `FinishIResult::finish`, as the parse entry points use it: the
parse must succeed and consume the entire input. -/
def finishP {α : Type} : PRes α → Except PFail α
  | .ok (a, []) => .ok a
  | .ok (_, _ :: _) => .error ⟨true, none⟩
  | .error e => .error e

/-! ## Recursion guard, from `parser/mod.rs` (`RecursionCheck`) -/

/-- `RecursionCheck::check_depth`: a depth below 128 passes, anything else
is a `RecursionLimitExceeded` condition. -/
def check_depth (depth : Nat) : Except CustomError Unit :=
  if depth < 128 then .ok () else .error .recursionLimitExceeded

/-- `RecursionCheck::recursing`: increments the counter copied into the
recursive call and fails (recoverably, `Err::Error`) once it reaches 128. -/
def recursing (current : Nat) : Except PFail Nat :=
  if current + 1 < 128 then .ok (current + 1)
  else .error ⟨true, some .recursionLimitExceeded⟩

/-! ## Datetime grammar, from `parser/datetime.rs` -/

/-- RFC 3339 date as produced by `full_date`. -/
structure Date where
  year : Nat
  month : Nat
  day : Nat
deriving DecidableEq

/-- RFC 3339 partial time as produced by `partial_time`. -/
structure Time where
  hour : Nat
  minute : Nat
  second : Nat
  nanosecond : Nat
deriving DecidableEq

/-- Time offset: `Z` or a signed hour / unsigned minute pair. -/
inductive Offset where
  | Z
  | custom (hours : Int) (minutes : Nat)
deriving DecidableEq

/-- The tagged datetime composite of the `toml_datetime` crate. -/
structure Datetime where
  date : Option Date
  time : Option Time
  offset : Option Offset
deriving DecidableEq

/-- Greedy bounded digit scan: at most `n` leading ASCII digits. -/
def takeDigits : Nat → List Char → (List Char × List Char)
  | 0, l => ([], l)
  | _ + 1, [] => ([], [])
  | n + 1, c :: rest =>
    if c.isDigit then
      let (a, b) := takeDigits n rest
      (c :: a, b)
    else ([], c :: rest)

/-- `unsigned_digits::<MIN, MAX>`: between `mn` and `mx` ASCII digits,
greedy up to `mx` (`take_while_m_n`). -/
def unsigned_digits (mn mx : Nat) (input : List Char) : PRes (List Char) :=
  let (ds, rest) := takeDigits mx input
  if mn ≤ ds.length then .ok (ds, rest) else gerr

/-- Numeric value of a digit string, the `str::parse` on the matched span. -/
def digitsToNat (ds : List Char) : Nat :=
  ds.foldl (fun a c => a * 10 + (c.toNat - 48)) 0

/-- `date_fullyear`: exactly 4 digits, no range check. -/
def date_fullyear (input : List Char) : PRes Nat :=
  pbind (unsigned_digits 4 4 input) fun ds rest => .ok (digitsToNat ds, rest)

/-- `date_month`: 2 digits, in range 1..=12 or `OutOfRange`. -/
def date_month (input : List Char) : PRes Nat :=
  pbind (unsigned_digits 2 2 input) fun ds rest =>
    let d := digitsToNat ds
    if 1 ≤ d ∧ d ≤ 12 then .ok (d, rest) else .error ⟨true, some .outOfRange⟩

/-- `date_mday`: 2 digits, in range 1..=31 or `OutOfRange`. -/
def date_mday (input : List Char) : PRes Nat :=
  pbind (unsigned_digits 2 2 input) fun ds rest =>
    let d := digitsToNat ds
    if 1 ≤ d ∧ d ≤ 31 then .ok (d, rest) else .error ⟨true, some .outOfRange⟩

/-- `time_hour`: 2 digits, in range 0..=23 or `OutOfRange`. -/
def time_hour (input : List Char) : PRes Nat :=
  pbind (unsigned_digits 2 2 input) fun ds rest =>
    let d := digitsToNat ds
    if d ≤ 23 then .ok (d, rest) else .error ⟨true, some .outOfRange⟩

/-- `time_minute`: 2 digits, in range 0..=59 or `OutOfRange`. -/
def time_minute (input : List Char) : PRes Nat :=
  pbind (unsigned_digits 2 2 input) fun ds rest =>
    let d := digitsToNat ds
    if d ≤ 59 then .ok (d, rest) else .error ⟨true, some .outOfRange⟩

/-- `time_second`: 2 digits, in range 0..=60 (leap second) or `OutOfRange`. -/
def time_second (input : List Char) : PRes Nat :=
  pbind (unsigned_digits 2 2 input) fun ds rest =>
    let d := digitsToNat ds
    if d ≤ 60 then .ok (d, rest) else .error ⟨true, some .outOfRange⟩

/-- The scaling lookup table of `time_secfrac`, indexed by the number of
digits retained. -/
def SCALE : List Nat :=
  [0, 100000000, 10000000, 1000000, 100000, 10000, 1000, 100, 10, 1]

/-- `u32` parsing of a digit span: fails when the value overflows `u32`
(mapped to `OutOfRange` by the caller). -/
def parse_u32 (ds : List Char) : Option Nat :=
  if ds ≠ [] ∧ digitsToNat ds < 2 ^ 32 then some (digitsToNat ds) else none

/-- `time_secfrac`: a dot followed by one or more digits; the digit string
is truncated (never rounded) to at most `SCALE.length - 1 = 9` digits, the
kept digits are parsed as `u32` and scaled by the table entry indexed by
the number of digits retained; the parse failure, the table miss and the
`checked_mul` overflow are each mapped to `OutOfRange`. -/
def time_secfrac (input : List Char) : PRes Nat :=
  match input with
  | c :: r =>
    if c = '.' then
      pbind (unsigned_digits 1 r.length r) fun ds rest =>
        let maxDigits := SCALE.length - 1
        let ds' := if maxDigits < ds.length then ds.take maxDigits else ds
        match parse_u32 ds' with
        | none => .error ⟨true, some .outOfRange⟩
        | some v =>
          match SCALE.get? ds'.length with
          | none => .error ⟨true, some .outOfRange⟩
          | some scale =>
            if v * scale < 2 ^ 32 then .ok (v * scale, rest)
            else .error ⟨true, some .outOfRange⟩
    else gerr
  | [] => gerr

/-- `full_date = date-fullyear "-" date-month "-" date-mday`, with the
month/day part committed by `cut`. -/
def full_date (input : List Char) : PRes Date :=
  pbind (date_fullyear input) fun y r1 =>
  pbind (chP '-' r1) fun _ r2 =>
  pcut (pbind (date_month r2) fun mo r3 =>
        pbind (chP '-' r3) fun _ r4 =>
        pbind (date_mday r4) fun d r5 =>
        .ok (⟨y, mo, d⟩, r5))

/-- `partial_time = time-hour ":" time-minute ":" time-second
[time-secfrac]`, committed by `cut` after the first colon; an absent
fraction yields nanosecond 0 (`unwrap_or_default`). -/
def partial_time (input : List Char) : PRes Time :=
  pbind (time_hour input) fun h r1 =>
  pbind (chP ':' r1) fun _ r2 =>
  pcut (pbind (time_minute r2) fun mi r3 =>
        pbind (chP ':' r3) fun _ r4 =>
        pbind (time_second r4) fun s r5 =>
        match time_secfrac r5 with
        | .ok (ns, r6) => .ok (⟨h, mi, s, ns⟩, r6)
        | .error e =>
          if e.recoverable then .ok (⟨h, mi, s, 0⟩, r5) else .error e)

/-- `time_offset`: literal `Z`/`z`, or a sign committed by `cut` followed
by hour, colon, minute; the sign is applied to the hour only. -/
def time_offset (input : List Char) : PRes Offset :=
  match input with
  | c :: r =>
    if c = 'Z' ∨ c = 'z' then .ok (.Z, r)
    else if c = '+' ∨ c = '-' then
      pcut (pbind (time_hour r) fun h r1 =>
            pbind (chP ':' r1) fun _ r2 =>
            pbind (time_minute r2) fun mi r3 =>
            .ok (.custom (if c = '+' then (h : Int) else -(h : Int)) mi, r3))
    else gerr
  | [] => gerr

/-- `time_delim`: `T`, `t` or a single space. -/
def time_delim (input : List Char) : PRes Unit :=
  match input with
  | c :: r => if c = 'T' ∨ c = 't' ∨ c = ' ' then .ok ((), r) else gerr
  | [] => gerr

/-- The optional time part after a full date:
`(time_delim, partial_time, opt(time_offset))`. -/
def timePart (input : List Char) : PRes (Time × Option Offset) :=
  pbind (time_delim input) fun _ r1 =>
  pbind (partial_time r1) fun t r2 =>
    match time_offset r2 with
    | .ok (o, r3) => .ok ((t, some o), r3)
    | .error e => if e.recoverable then .ok ((t, none), r2) else .error e

/-- `date_time`: ordered alternation.  A full date optionally followed by
time and offset yields the three date-carrying variants; otherwise a bare
partial time yields a local time. -/
def date_time (input : List Char) : PRes Datetime :=
  match (pbind (full_date input) fun d r1 =>
          match timePart r1 with
          | .ok ((t, o), r2) => .ok (⟨some d, some t, o⟩, r2)
          | .error e =>
            if e.recoverable then .ok ((⟨some d, none, none⟩ : Datetime), r1)
            else .error e) with
  | .ok a => .ok a
  | .error e =>
    if e.recoverable then
      pbind (partial_time input) fun t r => .ok (⟨none, some t, none⟩, r)
    else .error e

/-! ## Decor, Repr and the Key model, from `key.rs` and `repr.rs` -/

/-- Decor: the raw whitespace surrounding a node, from `repr.rs`
(prefix and suffix text). -/
structure Decor where
  pre : List Char
  suf : List Char
deriving DecidableEq

/-- Empty decor, the default. -/
def Decor.empty : Decor := ⟨[], []⟩

/-- A key: its decoded string (the semantic identity), the optional
original representation (exact source spelling) and its decor, from
`key.rs` (`struct Key`). -/
structure Key where
  key : List Char
  repr : Option (List Char)
  decor : Decor
deriving DecidableEq

/-- `PartialEq for Key`: equality is over the decoded string only. -/
def Key.beq (a b : Key) : Bool := a.key == b.key

/-- Lexicographic comparison of char lists, the `str::cmp` order. -/
def compareChars : List Char → List Char → Ordering
  | [], [] => .eq
  | [], _ :: _ => .lt
  | _ :: _, [] => .gt
  | a :: as_, b :: bs =>
    if a < b then .lt else if b < a then .gt else compareChars as_ bs

/-- `Ord for Key`: comparison is over the decoded string only
(`self.get().cmp(other.get())`). -/
def Key.cmp (a b : Key) : Ordering := compareChars a.key b.key

/-- `Hash for Key`: the data fed to the hasher is the decoded string only
(`self.get().hash(state)`); we model the hashed bytes themselves. -/
def Key.hashInput (a : Key) : List Char := a.key

/-! ## Trivia and string parsers

The whitespace and quoted-string grammars live in `parser/trivia.rs` and
`parser/strings.rs`, which are not among the provided sources; the
definitions below are modelled from the spec. -/

/-- Modelled from the spec: `ws` whitespace characters (space and tab),
`parser/trivia.rs` being outside the provided sources. -/
def isWsChar (c : Char) : Bool := c = ' ' ∨ c = tab

/-- Modelled from the spec: the `ws` rule of `parser/trivia.rs`, a greedy
run of whitespace characters, returned verbatim (it becomes decor).  It
never fails. -/
def wsP : List Char → (List Char × List Char)
  | [] => ([], [])
  | c :: rest =>
    if isWsChar c then
      let (a, b) := wsP rest
      (c :: a, b)
    else ([], c :: rest)

/-- `is_unquoted_char`: the bare-key alphabet `A-Za-z0-9-_`. -/
def is_unquoted_char (c : Char) : Bool :=
  ('A' ≤ c ∧ c ≤ 'Z') ∨ ('a' ≤ c ∧ c ≤ 'z') ∨ ('0' ≤ c ∧ c ≤ '9') ∨
    c = '-' ∨ c = '_'

/-- Characters usable in a one-line literal string body. -/
def isLitChar (c : Char) : Bool := c ≠ sq ∧ c ≠ lf ∧ c ≠ cr

/-- Modelled from the spec: the body scan of a one-line literal string
(`parser/strings.rs` is outside the provided sources): characters up to
the closing quote, no escape processing.  Returns the decoded body and the
input after the closing quote. -/
def litChars : List Char → Option (List Char × List Char)
  | [] => none
  | c :: rest =>
    if c = sq then some ([], rest)
    else if isLitChar c then
      match litChars rest with
      | some (s, r) => some (c :: s, r)
      | none => none
    else none

/-- Modelled from the spec: `literal_string` of `parser/strings.rs`: an
apostrophe-delimited string, decoded verbatim.  Returns the raw span
(quotes included) and the decoded body. -/
def literal_string (input : List Char) : PRes (List Char × List Char) :=
  match input with
  | c :: rest =>
    if c = sq then
      match litChars rest with
      | some (s, r) => .ok ((sq :: s ++ [sq], s), r)
      | none => gerr
    else gerr
  | [] => gerr

/-- One-character escapes of a basic string. -/
def escChar (c : Char) : Option Char :=
  if c = 'n' then some lf
  else if c = 't' then some tab
  else if c = 'r' then some cr
  else if c = 'f' then some (Char.ofNat 12)
  else if c = 'b' then some (Char.ofNat 8)
  else if c = dq then some dq
  else if c = bsl then some bsl
  else none

/-- Characters usable unescaped in a one-line basic string body. -/
def isBasicChar (c : Char) : Bool := c ≠ dq ∧ c ≠ bsl ∧ c ≠ lf ∧ c ≠ cr

/-- Modelled from the spec: the body scan of a one-line basic string
(`parser/strings.rs` is outside the provided sources): unescaped
characters and one-character escapes up to the closing quote.  Returns
the raw body span, the decoded body and the input after the closing
quote. -/
def basicChars : List Char → Option (List Char × List Char × List Char)
  | [] => none
  | c :: rest =>
    if c = dq then some ([], [], rest)
    else if c = bsl then
      match rest with
      | [] => none
      | e :: rest' =>
        match escChar e with
        | some d =>
          match basicChars rest' with
          | some (raw, dec, r) => some (c :: e :: raw, d :: dec, r)
          | none => none
        | none => none
    else if isBasicChar c then
      match basicChars rest with
      | some (raw, dec, r) => some (c :: raw, c :: dec, r)
      | none => none
    else none

/-- Modelled from the spec: `basic_string` of `parser/strings.rs`: a
quote-delimited string with escape decoding.  Returns the raw span (quotes
included) and the decoded body. -/
def basic_string (input : List Char) : PRes (List Char × List Char) :=
  match input with
  | c :: rest =>
    if c = dq then
      match basicChars rest with
      | some (raw, dec, r) => .ok ((dq :: raw ++ [dq], dec), r)
      | none => gerr
    else gerr
  | [] => gerr

/-! ## Key parsing, from `parser/key.rs` -/

/-- `unquoted_key`: `take_while1` over the bare-key alphabet. -/
def unquoted_key (input : List Char) : PRes (List Char) :=
  let tok := input.takeWhile is_unquoted_char
  if tok = [] then gerr else .ok (tok, input.dropWhile is_unquoted_char)

/-- `simple_key`: dispatch on the first character — quotation mark for a
basic string, apostrophe for a literal string, otherwise a bare key.
Returns the recognized raw span together with the decoded key. -/
def simple_key (input : List Char) : PRes (List Char × List Char) :=
  match input with
  | [] => gerr
  | c :: _ =>
    if c = dq then basic_string input
    else if c = sq then literal_string input
    else pbind (unquoted_key input) fun tok rest => .ok ((tok, tok), rest)

/-- One dotted-key segment: `(ws, simple_key, ws)` mapped to a `Key`
carrying its representation and decor, as in `parser/key.rs::key`. -/
def segP (input : List Char) : PRes Key :=
  let (pre, r1) := wsP input
  pbind (simple_key r1) fun rd r2 =>
    let (suf, r3) := wsP r2
    .ok (⟨rd.2, some rd.1, ⟨pre, suf⟩⟩, r3)

/-- The continuation loop of `separated_list1 DOT_SEP`: while a dot
follows, parse another segment; a recoverable segment failure stops the
list without consuming the dot. -/
def keySegsLoop : Nat → List Char → List Key → PRes (List Key)
  | 0, _, _ => .error ⟨false, none⟩
  | fuel + 1, input, acc =>
    match input with
    | c :: r =>
      if c = '.' then
        match segP r with
        | .ok (k, r2) => keySegsLoop fuel r2 (acc ++ [k])
        | .error e => if e.recoverable then .ok (acc, input) else .error e
      else .ok (acc, input)
    | [] => .ok (acc, input)

/-- `key`: one or more dot-separated simple keys, then the path depth is
checked against the recursion ceiling (`RecursionCheck::check_depth`),
whose failure is attached as a recoverable error by `map_res`. -/
def keyP (fuel : Nat) (input : List Char) : PRes (List Key) :=
  pbind (segP input) fun k r1 =>
  pbind (keySegsLoop fuel r1 [k]) fun ks r2 =>
    match check_depth ks.length with
    | .ok () => .ok (ks, r2)
    | .error ce => .error ⟨true, some ce⟩

/-- `parse_key` of `parser/mod.rs`: run `simple_key` on the whole input
and `finish` it (entire input must be consumed); on success the key gets
the recognized span as representation and no decor. -/
def parse_key (input : List Char) : Except PFail Key :=
  match finishP (simple_key input) with
  | .ok (raw, dec) => .ok ⟨dec, some raw, Decor.empty⟩
  | .error e => .error e

/-- `parse_key_path` of `parser/mod.rs`: run `key` on the whole input and
`finish` it. -/
def parse_key_path (input : List Char) : Except PFail (List Key) :=
  finishP (keyP (input.length + 1) input)

/-! ## Representation synthesis, from `key.rs` -/

/-- Modelled from the spec: the single-quoted one-line literal spelling
chosen by `to_string_repr(key, OnelineSingle, false)` (`encode.rs` is
outside the provided sources): the string between apostrophes, with no
escape processing. -/
def quotedSpelling (key : List Char) : List Char := sq :: key ++ [sq]

/-- `to_key_repr`: the bare spelling when every character is in the
unquoted-key alphabet and the string is non-empty, else the single-quoted
literal spelling. -/
def to_key_repr (key : List Char) : List Char :=
  if key.all is_unquoted_char ∧ key ≠ [] then key else quotedSpelling key

/-- `Key::to_repr`: the stored representation when present, else a
synthesized one. -/
def Key.to_repr (k : Key) : List Char :=
  match k.repr with
  | some r => r
  | none => to_key_repr k.key

/-! ## Inline table data model

The `InlineTable` value type and its entry map live in `inline_table.rs`
(data model) and `value.rs`, outside the provided sources; the shapes
below are modelled from the spec: a value carries decor; an inline table
is an insertion-ordered map from decoded key string to a (key, value)
pair, plus the dotted flag and the preamble. -/

/-- Opening brace character, `%x7B`. -/
def lbrace : Char := Char.ofNat 123

/-- Closing brace character, `%x7D`. -/
def rbrace : Char := Char.ofNat 125

mutual
/-- Modelled from the spec: the value variants the inline-table grammar
needs (`value.rs` is outside the provided sources) — quoted strings
(decoded text and verbatim spelling), other scalars kept as verbatim
tokens, and nested inline tables; each carries its decor. -/
inductive Value where
  | str (decoded : List Char) (raw : List Char) (decor : Decor)
  | atom (raw : List Char) (decor : Decor)
  | table (t : InlineTable) (decor : Decor)

/-- Modelled from the spec: an inline table — insertion-ordered entries,
the dotted flag (segment tables synthesized by dotted-key resolution) and
the preamble (trailing whitespace before the closing brace). -/
inductive InlineTable where
  | mk (items : Items) (dotted : Bool) (preamble : List Char)

/-- Modelled from the spec: the insertion-ordered entry map (IndexMap):
each entry holds the map key (the decoded key string), the stored `Key`
and the value. -/
inductive Items where
  | nil
  | cons (mapKey : List Char) (k : Key) (v : Value) (rest : Items)
end

/-- Entry list of an inline table. -/
def InlineTable.items : InlineTable → Items
  | .mk i _ _ => i

/-- Dotted flag of an inline table. -/
def InlineTable.dotted : InlineTable → Bool
  | .mk _ d _ => d

/-- Preamble of an inline table. -/
def InlineTable.preamble : InlineTable → List Char
  | .mk _ _ p => p

/-- `InlineTable::new()`: empty, not dotted, empty preamble. -/
def InlineTable.new : InlineTable := .mk .nil false []

/-- A (Key, value) pair inside a table, from `table.rs`
(`TableKeyValue`, with `Item::Value` collapsed into the value). -/
structure TableKeyValue where
  key : Key
  value : Value

/-- `Value::type_name`, as used in type-conflict errors. -/
def Value.type_name : Value → List Char
  | .str .. => ['s', 't', 'r', 'i', 'n', 'g']
  | .atom .. => ['v', 'a', 'l', 'u', 'e']
  | .table .. => ['i', 'n', 'l', 'i', 'n', 'e', ' ', 't', 'a', 'b', 'l', 'e']

/-- Decor of a value. -/
def Value.decor : Value → Decor
  | .str _ _ d => d
  | .atom _ d => d
  | .table _ d => d

/-- `Value::decorated`: replace the surrounding whitespace. -/
def Value.decorated : Value → List Char → List Char → Value
  | .str dec raw _, p, s => .str dec raw ⟨p, s⟩
  | .atom raw _, p, s => .atom raw ⟨p, s⟩
  | .table t _, p, s => .table t ⟨p, s⟩

/-- IndexMap lookup by map key (the decoded key string). -/
def Items.lookup : Items → List Char → Option (Key × Value)
  | .nil, _ => none
  | .cons s0 k v rest, s => if s0 = s then some (k, v) else Items.lookup rest s

/-- IndexMap in-place update of an occupied entry (position preserved). -/
def Items.update : Items → List Char → Key → Value → Items
  | .nil, _, _, _ => .nil
  | .cons s0 k v rest, s, k1, v1 =>
    if s0 = s then .cons s0 k1 v1 rest
    else .cons s0 k v (Items.update rest s k1 v1)

/-- IndexMap vacant insertion: appended at the end. -/
def Items.append1 : Items → List Char → Key → Value → Items
  | .nil, s, k, v => .cons s k v .nil
  | .cons s0 k0 v0 rest, s, k, v => .cons s0 k0 v0 (Items.append1 rest s k v)

/-- Number of entries. -/
def Items.len : Items → Nat
  | .nil => 0
  | .cons _ _ _ r => r.len + 1

/-- Spine induction for `Items` (recursion along the entry list only,
never into the stored values). -/
def Items.spineInd {P : Items → Prop} (h0 : P .nil)
    (h1 : ∀ s k v rest, P rest → P (.cons s k v rest)) : ∀ items, P items
  | .nil => h0
  | .cons s k v rest => h1 s k v rest (Items.spineInd h0 h1 rest)

/-- The lookup done by `InlineTable::entry_format`: the decoded string of
the probing key is all that is consulted. -/
def entry_format_lookup (t : InlineTable) (k : Key) : Option (Key × Value) :=
  t.items.lookup k.key

/-! ## Dotted-path assembly, from `parser/inline_table.rs`
(`table_from_pairs` and `descend_path`) -/

/-- One entry of `table_from_pairs`: walk the key path from the current
table (`descend_path`) and insert the leaf pair.  The walk and the leaf
insertion are fused into one functional recursion over the path: the empty
path is the leaf insertion (`Entry::Vacant` inserts, `Entry::Occupied` is
a duplicate-key error); a path segment looks up its decoded string — if
absent a new dotted inline table is created and descended into
(`or_insert_with`), if present with an inline-table value that child is
descended into, and any other value is a type-conflict error carrying the
entry's path, the segment index and the actual type name.

`strict` is a verification device: with `strict := false` this is exactly
the source's behavior; `strict := true` additionally rejects descending
into an already-existing child, which carves out the inputs whose
re-serialization is byte-exact. -/
def insertEntry (strict : Bool) (fullPath : List Key) :
    InlineTable → List Key → Nat → TableKeyValue → Except CustomError InlineTable
  | t, [], _, kv =>
    match t.items.lookup kv.key.key with
    | some _ => .error (.duplicateKey kv.key.key)
    | none => .ok (.mk (t.items.append1 kv.key.key kv.key kv.value) t.dotted t.preamble)
  | t, k :: rest, i, kv =>
    match t.items.lookup k.key with
    | none =>
      match insertEntry strict fullPath (.mk .nil true []) rest (i + 1) kv with
      | .error e => .error e
      | .ok child =>
        .ok (.mk (t.items.append1 k.key k (.table child Decor.empty)) t.dotted t.preamble)
    | some (k0, v) =>
      match v with
      | .table c d =>
        if strict then .error (.duplicateKey k.key)
        else
          match insertEntry strict fullPath c rest (i + 1) kv with
          | .error e => .error e
          | .ok c1 => .ok (.mk (t.items.update k.key k0 (.table c1 d)) t.dotted t.preamble)
      | v => .error (.extendWrongType (fullPath.map Key.key) i v.type_name)

/-- The entry loop of `table_from_pairs`. -/
def insertAll (strict : Bool) :
    InlineTable → List (List Key × TableKeyValue) → Except CustomError InlineTable
  | t, [] => .ok t
  | t, (path, kv) :: rest =>
    match insertEntry strict path t path 0 kv with
    | .error e => .error e
    | .ok t1 => insertAll strict t1 rest

/-- `table_from_pairs`: start from an empty root carrying the preamble and
insert every parsed (key-path, key-value) entry. -/
def table_from_pairs (strict : Bool) (v : List (List Key × TableKeyValue))
    (preamble : List Char) : Except CustomError InlineTable :=
  insertAll strict (.mk .nil false preamble) v

/-! ## The inline-table grammar, from `parser/inline_table.rs` -/

/-- Modelled from the spec: the token alphabet of scalar values other than
strings and tables (numbers, booleans, datetimes), whose grammars are
external collaborators; a token runs until whitespace or a structural
character. -/
def isAtomChar (c : Char) : Bool :=
  ¬ isWsChar c ∧ c ≠ ',' ∧ c ≠ lbrace ∧ c ≠ rbrace ∧ c ≠ '[' ∧ c ≠ ']' ∧
    c ≠ '=' ∧ c ≠ sq ∧ c ≠ dq ∧ c ≠ lf ∧ c ≠ cr

/-- Split a non-empty list into its leading part and last element
(the `path.pop()` of `keyval`). -/
def splitLast : List Key → Option (List Key × Key)
  | [] => none
  | [k] => some ([], k)
  | k :: k1 :: rest =>
    match splitLast (k1 :: rest) with
    | some (p, last) => some (k :: p, last)
    | none => none

mutual
/-- Modelled from the spec: the `value` dispatch of `value.rs` (outside
the provided sources), restricted to what inline tables need: a basic or
literal string, a nested inline table (which receives the recursion
check), or a verbatim scalar token.  A freshly parsed value carries empty
decor; `keyval` decorates it. -/
def valueP (strict : Bool) : Nat → Nat → List Char → PRes Value
  | 0, _, _ => .error ⟨false, none⟩
  | fuel + 1, check, input =>
    match input with
    | [] => gerr
    | c :: cs =>
      if c = dq then
        pbind (basic_string input) fun rd rest => .ok (.str rd.2 rd.1 Decor.empty, rest)
      else if c = sq then
        pbind (literal_string input) fun rd rest => .ok (.str rd.2 rd.1 Decor.empty, rest)
      else if c = lbrace then
        match inlineBodyP strict fuel check cs with
        | .ok (t, r) => .ok (.table t Decor.empty, r)
        | .error e => .error e
      else
        let tok := input.takeWhile isAtomChar
        if tok = [] then gerr
        else .ok (.atom tok Decor.empty, input.dropWhile isAtomChar)
termination_by structural fuel _ _ => fuel

/-- `inline_table` after its opening brace: the recursion check
(`inline_table_keyvals` recursing), the comma-separated keyval list, the
trailing whitespace (the preamble), assembly by `table_from_pairs` — all
committed by `cut` — and the closing brace (also `cut`). -/
def inlineBodyP (strict : Bool) : Nat → Nat → List Char → PRes InlineTable
  | 0, _, _ => .error ⟨false, none⟩
  | fuel + 1, check, input =>
    match recursing check with
    | .error e => .error ⟨false, e.custom⟩
    | .ok check1 =>
      match keyvalsP strict fuel check1 input with
      | .error e => .error ⟨false, e.custom⟩
      | .ok (pairs, r1) =>
        let (pre, r2) := wsP r1
        match table_from_pairs strict pairs pre with
        | .error ce => .error ⟨false, some ce⟩
        | .ok t =>
          match r2 with
          | c :: r3 => if c = rbrace then .ok (t, r3) else .error ⟨false, none⟩
          | [] => .error ⟨false, none⟩
termination_by structural fuel _ _ => fuel

/-- `separated_list0(INLINE_TABLE_SEP, keyval)`: an empty list when the
first keyval fails recoverably. -/
def keyvalsP (strict : Bool) : Nat → Nat → List Char → PRes (List (List Key × TableKeyValue))
  | 0, _, _ => .error ⟨false, none⟩
  | fuel + 1, check, input =>
    match keyvalP strict fuel check input with
    | .error e => if e.recoverable then .ok ([], input) else .error e
    | .ok (p, r) => keyvalsTailP strict fuel check r [p]
termination_by structural fuel _ _ => fuel

/-- The continuation of the keyval list: while a comma follows, parse
another keyval; a recoverable keyval failure stops the list without
consuming the comma. -/
def keyvalsTailP (strict : Bool) :
    Nat → Nat → List Char → List (List Key × TableKeyValue) →
      PRes (List (List Key × TableKeyValue))
  | 0, _, _, _ => .error ⟨false, none⟩
  | fuel + 1, check, input, acc =>
    match input with
    | c :: r1 =>
      if c = ',' then
        match keyvalP strict fuel check r1 with
        | .ok (p, r2) => keyvalsTailP strict fuel check r2 (acc ++ [p])
        | .error e => if e.recoverable then .ok (acc, input) else .error e
      else .ok (acc, input)
    | [] => .ok (acc, input)
termination_by structural fuel _ _ _ => fuel

/-- `keyval`: a dotted key, then — committed by `cut` — the `=` sign and
the value surrounded by whitespace, which becomes the value's decor; the
last key segment is the leaf key, the rest is the path. -/
def keyvalP (strict : Bool) : Nat → Nat → List Char → PRes (List Key × TableKeyValue)
  | 0, _, _ => .error ⟨false, none⟩
  | fuel + 1, check, input =>
    match keyP (input.length + 1) input with
    | .error e => .error e
    | .ok (ks, r1) =>
      match r1 with
      | c :: r2 =>
        if c = '=' then
          let (pre, r3) := wsP r2
          match valueP strict fuel check r3 with
          | .error e => .error ⟨false, e.custom⟩
          | .ok (v, r4) =>
            let (suf, r5) := wsP r4
            match splitLast ks with
            | some (path, k) => .ok ((path, ⟨k, v.decorated pre suf⟩), r5)
            | none => .error ⟨false, none⟩
        else .error ⟨false, none⟩
      | [] => .error ⟨false, none⟩
termination_by structural fuel _ _ => fuel
end

/-- `inline_table`: the opening brace, then the committed body. -/
def inline_tableP (strict : Bool) (fuel check : Nat) (input : List Char) :
    PRes InlineTable :=
  match input with
  | c :: cs => if c = lbrace then inlineBodyP strict fuel check cs else gerr
  | [] => gerr

/-- Parse one full inline-table text (entire input consumed), with fuel
ample for the input length. -/
def parseInlineTable (strict : Bool) (s : List Char) : Except PFail InlineTable :=
  finishP (inline_tableP strict (4 * s.length + 8) 0 s)

/-! ## Re-serialization

`encode.rs` is outside the provided sources; the renderer below is
modelled from the spec: a table prints its opening brace, its entries
separated by commas — an entry prints its dotted key path (each segment as
prefix decor, representation, suffix decor, segments joined by dots), the
equals sign and the decorated value, and dotted child tables are flattened
back into dotted-key entries — then the preamble and the closing brace. -/

/-- A key segment as it re-serializes: decor prefix, representation,
decor suffix. -/
def segText (k : Key) : List Char := k.decor.pre ++ k.repr.getD [] ++ k.decor.suf

/-- The continuation of a dotted key path: a dot before every further
segment. -/
def pathTailText (ks : List Key) : List Char :=
  (ks.map fun k => '.' :: segText k).flatten

/-- A full dotted key path: segments joined by dots. -/
def pathText : List Key → List Char
  | [] => []
  | k :: ks => segText k ++ pathTailText ks

/-- Comma-separated concatenation of rendered entries. -/
def joinComma : List (List Char) → List Char
  | [] => []
  | x :: xs => x ++ (xs.map fun e => ',' :: e).flatten

mutual
/-- The core spelling of a value, without its decor: the verbatim token or
string spelling, or a nested table rendered structurally. -/
def valueCore : Value → List Char
  | .str _ raw _ => raw
  | .atom raw _ => raw
  | .table t _ => renderTable t

/-- A full inline table: brace, comma-joined entries, preamble, brace. -/
def renderTable : InlineTable → List Char
  | .mk items _ preamble => lbrace :: (joinComma (entryTexts items) ++ preamble ++ [rbrace])

/-- The rendered entries of an entry list: a dotted child table flattens
into its entries each keyed under the parent segment and a dot; any other
entry renders as key, equals sign and decorated value. -/
def entryTexts : Items → List (List Char)
  | .nil => []
  | .cons _ k v rest =>
    (match v with
     | .table c d =>
       match c with
       | .mk citems cdot cpre =>
         if cdot then (entryTexts citems).map fun e => segText k ++ '.' :: e
         else [segText k ++ '=' :: (d.pre ++ renderTable (.mk citems cdot cpre) ++ d.suf)]
     | .str _ raw d => [segText k ++ '=' :: (d.pre ++ raw ++ d.suf)]
     | .atom raw d => [segText k ++ '=' :: (d.pre ++ raw ++ d.suf)]) ++ entryTexts rest
end

/-- The contribution of a single entry to the rendered entry list (the
body of `entryTexts` on one entry, as a plain function). -/
def entryChunk (k : Key) (v : Value) : List (List Char) :=
  match v with
  | .table c d =>
    match c with
    | .mk citems cdot cpre =>
      if cdot then (entryTexts citems).map fun e => segText k ++ '.' :: e
      else [segText k ++ '=' :: (d.pre ++ renderTable (.mk citems cdot cpre) ++ d.suf)]
  | .str _ raw d => [segText k ++ '=' :: (d.pre ++ raw ++ d.suf)]
  | .atom raw d => [segText k ++ '=' :: (d.pre ++ raw ++ d.suf)]

/-- The decorated spelling of a value: prefix decor, core, suffix decor. -/
def valueDecorText (v : Value) : List Char :=
  v.decor.pre ++ valueCore v ++ v.decor.suf

/-- The re-serialization of one parsed (key-path, key-value) entry. -/
def entryText (p : List Key × TableKeyValue) : List Char :=
  pathText (p.1 ++ [p.2.key]) ++ '=' :: valueDecorText p.2.value

/-- Parse then re-serialize an inline-table text with the source's (lax)
assembly. -/
def roundTripInline (s : List Char) : Option (List Char) :=
  match parseInlineTable false s with
  | .ok t => some (renderTable t)
  | .error _ => none

/-- Leaf values produced by the value grammar are never dotted tables
(a parsed nested table is the explicit `«{...}»` form). -/
def leafOK : Value → Prop
  | .table t _ => t.dotted = false
  | _ => True

/-! ## Concrete inputs for the boundary and example tests -/

/-- A value nested `n` inline tables deep: `nestText 0` is the token `1`,
and each level wraps `a=...` in braces. -/
def nestText : Nat → List Char
  | 0 => ['1']
  | n + 1 => lbrace :: 'a' :: '=' :: (nestText n ++ [rbrace])

/-- The value `nestText n` parses to. -/
def nestVal : Nat → Value
  | 0 => .atom ['1'] Decor.empty
  | n + 1 =>
    .table (.mk (.cons ['a'] ⟨['a'], some ['a'], Decor.empty⟩ (nestVal n) .nil) false [])
      Decor.empty

/-- The key `a` as parsed without surrounding whitespace. -/
def keyA : Key := ⟨['a'], some ['a'], Decor.empty⟩

/-- A dotted key path text of 127 bare segments `a.a.….a`. -/
def path127txt : List Char := 'a' :: (List.replicate 126 ['.', 'a']).flatten

/-- A dotted key path text of 128 bare segments. -/
def path128txt : List Char := 'a' :: (List.replicate 127 ['.', 'a']).flatten

/-- The inline-table text `{ 'b'.x = 1, "b".y = 2 }`: the same decoded
segment `b` spelled with both quoting styles. -/
def uniInput : List Char :=
  [lbrace, ' ', sq, 'b', sq, '.', 'x', ' ', '=', ' ', '1', ',', ' ',
   dq, 'b', dq, '.', 'y', ' ', '=', ' ', '2', ' ', rbrace]

/-- The table `uniInput` parses to: one child node `b` (first-seen
spelling, single-quoted) holding both leaves. -/
def uniExpected : InlineTable :=
  .mk (.cons ['b'] ⟨['b'], some [sq, 'b', sq], ⟨[' '], []⟩⟩
        (.table (.mk
          (.cons ['x'] ⟨['x'], some ['x'], ⟨[], [' ']⟩⟩ (.atom ['1'] ⟨[' '], []⟩)
            (.cons ['y'] ⟨['y'], some ['y'], ⟨[], [' ']⟩⟩ (.atom ['2'] ⟨[' '], [' ']⟩) .nil))
          true []) Decor.empty)
        .nil)
    false []

/-- The inline-table text `{ hello = "world", a = 2, hello = 1 }`, whose
key `hello` repeats. -/
def dupInput : List Char :=
  [lbrace, ' ', 'h', 'e', 'l', 'l', 'o', ' ', '=', ' ',
   dq, 'w', 'o', 'r', 'l', 'd', dq, ',', ' ', 'a', ' ', '=', ' ', '2', ',',
   ' ', 'h', 'e', 'l', 'l', 'o', ' ', '=', ' ', '1', ' ', rbrace]

/-- The inline-table text `{ hello = "world", a = 1}`, with distinct
keys. -/
def okInput : List Char :=
  [lbrace, ' ', 'h', 'e', 'l', 'l', 'o', ' ', '=', ' ',
   dq, 'w', 'o', 'r', 'l', 'd', dq, ',', ' ', 'a', ' ', '=', ' ', '1', rbrace]

/-- The inline-table text `{a.b = 1, a = 2}`: a leaf key that repeats a
dotted segment. -/
def dupMixInput : List Char :=
  [lbrace, 'a', '.', 'b', ' ', '=', ' ', '1', ',', ' ', 'a', ' ', '=', ' ', '2', rbrace]

/-- The inline-table text `{a = 1, a.b = 2}`: a dotted path through a
non-table value. -/
def tcInput : List Char :=
  [lbrace, 'a', ' ', '=', ' ', '1', ',', ' ', 'a', '.', 'b', ' ', '=', ' ', '2', rbrace]

/-- The inline-table text `{}`. -/
def emptyTblInput : List Char := [lbrace, rbrace]

/-- The inline-table text `{   }`. -/
def spacesTblInput : List Char := [lbrace, ' ', ' ', ' ', rbrace]

/-- The inline-table text `{ hello.world = "a" }`. -/
def dottedTblInput : List Char :=
  [lbrace, ' ', 'h', 'e', 'l', 'l', 'o', '.', 'w', 'o', 'r', 'l', 'd', ' ', '=', ' ',
   dq, 'a', dq, ' ', rbrace]

/-- The inline-table text `{a.b = 1,  a.c = 2}` (two spaces after the
comma), whose two entries share the dotted first segment `a`. -/
def c1CexInput : List Char :=
  [lbrace, 'a', '.', 'b', ' ', '=', ' ', '1', ',', ' ', ' ', 'a', '.', 'c', ' ', '=',
   ' ', '2', rbrace]

/-- The inline-table text `{a.b = 1, a.c = 2}` (one space after the
comma). -/
def c1CexInput2 : List Char :=
  [lbrace, 'a', '.', 'b', ' ', '=', ' ', '1', ',', ' ', 'a', '.', 'c', ' ', '=',
   ' ', '2', rbrace]

/-! ## Digit-scan and numeral lemmas -/

/-- What the bounded digit scan takes is a digit run and a decomposition
of its input. -/
theorem takeDigits_sound : ∀ (n : Nat) (l a b : List Char), takeDigits n l = (a, b) →
    a ++ b = l ∧ (∀ c ∈ a, c.isDigit = true) := by
  intro n
  induction n with
  | zero =>
    intro l a b h
    simp only [takeDigits] at h
    obtain ⟨rfl, rfl⟩ := Prod.mk.injEq .. ▸ h
    simp
  | succ n ih =>
    intro l a b h
    cases l with
    | nil =>
      simp only [takeDigits] at h
      obtain ⟨rfl, rfl⟩ := Prod.mk.injEq .. ▸ h
      simp
    | cons c rest =>
      simp only [takeDigits] at h
      by_cases hc : c.isDigit
      · rw [if_pos hc] at h
        cases hr : takeDigits n rest with
        | mk a1 b1 =>
          rw [hr] at h
          obtain ⟨rfl, rfl⟩ := Prod.mk.injEq .. ▸ h
          obtain ⟨he, hd⟩ := ih rest a1 b1 hr
          refine ⟨by simp [he], ?_⟩
          intro x hx
          rcases List.mem_cons.mp hx with rfl | hx
          · exact hc
          · exact hd x hx
      · rw [if_neg hc] at h
        obtain ⟨rfl, rfl⟩ := Prod.mk.injEq .. ▸ h
        simp

/-- The bounded digit scan on a digit run followed by a non-digit takes
exactly the run. -/
theorem takeDigits_exact : ∀ (ds : List Char) (n : Nat) (rest : List Char),
    (∀ c ∈ ds, c.isDigit = true) → ds.length ≤ n →
    (∀ c, rest.head? = some c → c.isDigit = false) →
    takeDigits n (ds ++ rest) = (ds, rest) := by
  intro ds
  induction ds with
  | nil =>
    intro n rest _ _ hrest
    cases n with
    | zero => simp [takeDigits]
    | succ n =>
      cases rest with
      | nil => simp [takeDigits]
      | cons c r =>
        have : c.isDigit = false := hrest c rfl
        simp [takeDigits, this]
  | cons c ds ih =>
    intro n rest hd hlen hrest
    cases n with
    | zero => simp at hlen
    | succ n =>
      have hc : c.isDigit = true := hd c (List.mem_cons_self ..)
      have hds : ∀ x ∈ ds, x.isDigit = true := fun x hx => hd x (List.mem_cons_of_mem _ hx)
      have hlen1 : ds.length ≤ n := by simpa using hlen
      simp [takeDigits, hc, ih n rest hds hlen1 hrest]

/-- A digit character's code point is between 48 and 57. -/
theorem isDigit_toNat {c : Char} (h : c.isDigit = true) :
    48 ≤ c.toNat ∧ c.toNat ≤ 57 := by
  simp only [Char.isDigit, decide_eq_true_eq, Bool.and_eq_true] at h
  obtain ⟨h1, h2⟩ := h
  constructor
  · exact h1
  · exact h2

/-- The numeric value of a digit run is below the power of ten of its
length. -/
theorem digitsToNat_lt : ∀ (ds : List Char), (∀ c ∈ ds, c.isDigit = true) →
    digitsToNat ds < 10 ^ ds.length := by
  have aux : ∀ (ds : List Char) (acc : Nat), (∀ c ∈ ds, c.isDigit = true) →
      ds.foldl (fun a c => a * 10 + (c.toNat - 48)) acc < (acc + 1) * 10 ^ ds.length := by
    intro ds
    induction ds with
    | nil => intro acc _; simp
    | cons c ds ih =>
      intro acc hd
      have hc := isDigit_toNat (hd c (List.mem_cons_self ..))
      have hds : ∀ x ∈ ds, x.isDigit = true := fun x hx => hd x (List.mem_cons_of_mem _ hx)
      have h1 := ih (acc * 10 + (c.toNat - 48)) hds
      have h2 : acc * 10 + (c.toNat - 48) + 1 ≤ (acc + 1) * 10 := by omega
      calc (c :: ds).foldl (fun a x => a * 10 + (x.toNat - 48)) acc
      _ = ds.foldl (fun a x => a * 10 + (x.toNat - 48)) (acc * 10 + (c.toNat - 48)) := rfl
      _ < (acc * 10 + (c.toNat - 48) + 1) * 10 ^ ds.length := h1
      _ ≤ (acc + 1) * 10 * 10 ^ ds.length := Nat.mul_le_mul_right _ h2
      _ = (acc + 1) * 10 ^ (c :: ds).length := by
            simp [List.length_cons, Nat.pow_succ]; ring
  intro ds hd
  simpa [digitsToNat] using aux ds 0 hd

/-- The scale table at an index between 1 and 9 holds the matching power
of ten. -/
theorem scale_lookup : ∀ n : Nat, 1 ≤ n → n ≤ 9 → SCALE.get? n = some (10 ^ (9 - n)) := by
  intro n h1 h9
  interval_cases n <;> rfl

/-- A value below `10 ^ n` scaled by `10 ^ (9 - n)` stays within
nanosecond range. -/
theorem scaled_bound (v n : Nat) (hn1 : 1 ≤ n) (hn : n ≤ 9) (hv : v < 10 ^ n) :
    v * 10 ^ (9 - n) ≤ 999999999 := by
  have hs1 : 1 ≤ 10 ^ (9 - n) := Nat.one_le_pow _ _ (by norm_num)
  have h2 : (v + 1) * 10 ^ (9 - n) ≤ 10 ^ n * 10 ^ (9 - n) :=
    Nat.mul_le_mul_right _ hv
  rw [← pow_add] at h2
  have h3 : n + (9 - n) = 9 := by omega
  rw [h3] at h2
  have h4 : (10 : Nat) ^ 9 = 1000000000 := by norm_num
  have h5 : v * 10 ^ (9 - n) + 10 ^ (9 - n) ≤ 1000000000 := by
    calc v * 10 ^ (9 - n) + 10 ^ (9 - n) = (v + 1) * 10 ^ (9 - n) := by ring
    _ ≤ 10 ^ 9 := h2
    _ = 1000000000 := h4
  omega

/-- The explicit truncation step of `time_secfrac` keeps the first nine
digits. -/
theorem truncate9 (ds : List Char) :
    (if SCALE.length - 1 < ds.length then ds.take (SCALE.length - 1) else ds) =
      ds.take 9 := by
  have h10 : SCALE.length - 1 = 9 := rfl
  rw [h10]
  by_cases h : 9 < ds.length
  · rw [if_pos h]
  · rw [if_neg h]
    exact (List.take_of_length_le (by omega)).symm

/-- On a non-empty digit run, every fallible step inside `time_secfrac`'s
scaling computation succeeds, and the scaled value stays within nanosecond
range. -/
theorem secfrac_branches (ds : List Char) (hne : ds ≠ [])
    (hd : ∀ c ∈ ds, c.isDigit = true) :
    parse_u32 (ds.take 9) = some (digitsToNat (ds.take 9)) ∧
    SCALE.get? (ds.take 9).length = some (10 ^ (9 - (ds.take 9).length)) ∧
    digitsToNat (ds.take 9) * 10 ^ (9 - (ds.take 9).length) ≤ 999999999 := by
  have hlen : 0 < ds.length := List.length_pos.mpr hne
  have hd9 : ∀ c ∈ ds.take 9, c.isDigit = true := fun c hc => hd c (List.mem_of_mem_take hc)
  have hlen9 : (ds.take 9).length = min 9 ds.length := List.length_take ..
  have hlo : 1 ≤ (ds.take 9).length := by omega
  have hhi : (ds.take 9).length ≤ 9 := by omega
  have hv : digitsToNat (ds.take 9) < 10 ^ (ds.take 9).length := digitsToNat_lt _ hd9
  have hne9 : ds.take 9 ≠ [] := by
    intro h
    have h0 : (ds.take 9).length = 0 := by rw [h]; rfl
    omega
  have hvbig2 : digitsToNat (ds.take 9) < 4294967296 := by
    have h2 : digitsToNat (ds.take 9) < 10 ^ 9 :=
      lt_of_lt_of_le hv (Nat.pow_le_pow_right (by norm_num) hhi)
    omega
  refine ⟨by simp [parse_u32, hne9]; omega, scale_lookup _ hlo hhi, ?_⟩
  exact scaled_bound _ _ hlo hhi hv

/-- Full evaluation of `time_secfrac` on a dot followed by a digit run:
the run is truncated to its first nine digits and scaled by the matching
power of ten; every internal fallibility passes. -/
theorem time_secfrac_eval (ds rest : List Char) (hne : ds ≠ [])
    (hd : ∀ c ∈ ds, c.isDigit = true)
    (hrest : ∀ c, rest.head? = some c → c.isDigit = false) :
    time_secfrac ('.' :: (ds ++ rest)) =
      .ok (digitsToNat (ds.take 9) * 10 ^ (9 - (ds.take 9).length), rest) := by
  have hlen : 0 < ds.length := List.length_pos.mpr hne
  have htake : takeDigits (ds ++ rest).length (ds ++ rest) = (ds, rest) :=
    takeDigits_exact ds (ds ++ rest).length rest hd (by simp) hrest
  obtain ⟨hu, hscale, hbound⟩ := secfrac_branches ds hne hd
  have hlen9 : (ds.take 9).length = min 9 ds.length := List.length_take ..
  have hmul2 : digitsToNat (ds.take 9) * 10 ^ (9 - 9 ⊓ ds.length) < 4294967296 := by
    have h2 := hbound
    rw [hlen9] at h2
    omega
  simp only [time_secfrac, if_pos rfl, unsigned_digits, htake, pbind]
  rw [if_pos (by omega : 1 ≤ ds.length)]
  simp only [truncate9, hu, hscale]
  simp [hmul2, hlen9]

/-- Characterization of `time_secfrac` over every input: it either fails
with the bare grammar mismatch, or succeeds with a nanosecond value within
range — the `OutOfRange` branches of the scaling computation are
unreachable. -/
theorem time_secfrac_cases (input : List Char) :
    time_secfrac input = .error ⟨true, none⟩ ∨
      ∃ v rest, time_secfrac input = .ok (v, rest) ∧ v ≤ 999999999 := by
  cases input with
  | nil => left; rfl
  | cons c r =>
    by_cases hc : c = '.'
    · cases htd : takeDigits r.length r with
      | mk ds0 r0 =>
        obtain ⟨_, hdig⟩ := takeDigits_sound _ _ _ _ htd
        by_cases hlen : 1 ≤ ds0.length
        · right
          have hne : ds0 ≠ [] := by
            intro hh
            rw [hh] at hlen
            simp at hlen
          obtain ⟨hu, hscale, hbound⟩ := secfrac_branches ds0 hne hdig
          refine ⟨digitsToNat (ds0.take 9) * 10 ^ (9 - (ds0.take 9).length), r0, ?_, hbound⟩
          have hlen9 : (ds0.take 9).length = min 9 ds0.length := List.length_take ..
          have hmul : digitsToNat (ds0.take 9) * 10 ^ (9 - 9 ⊓ ds0.length) < 4294967296 := by
            rw [hlen9] at hbound
            omega
          simp only [time_secfrac, if_pos hc, unsigned_digits, htd]
          rw [if_pos hlen]
          simp only [pbind, truncate9, hu, hscale]
          simp [hmul, hlen9]
        · left
          simp only [time_secfrac, if_pos hc, unsigned_digits, htd]
          rw [if_neg hlen]
          rfl
    · left
      simp [time_secfrac, hc, gerr]

/-- C4: every fractional-seconds literal (a dot followed by one or more
digits) is truncated — never rounded — to at most nine digits, the kept
digits are scaled by the lookup table indexed by the number of digits
retained (three digits scale by 1,000,000), and the long literal
`1987-07-05T17:45:00.123456789012345Z` parses with nanosecond value
123456789. -/
theorem secfrac_truncates_not_rounds :
    (∀ (ds rest : List Char), ds ≠ [] → (∀ c ∈ ds, c.isDigit = true) →
      (∀ c, rest.head? = some c → c.isDigit = false) →
      time_secfrac ('.' :: (ds ++ rest)) =
        .ok (digitsToNat (ds.take 9) * 10 ^ (9 - (ds.take 9).length), rest)) ∧
    (∀ n, 1 ≤ n → n ≤ 9 → SCALE.get? n = some (10 ^ (9 - n))) ∧
    SCALE.get? 3 = some 1000000 ∧
    date_time ("1987-07-05T17:45:00.123456789012345Z".toList) =
      .ok (⟨some ⟨1987, 7, 5⟩, some ⟨17, 45, 0, 123456789⟩, some .Z⟩, []) := by
  exact ⟨time_secfrac_eval, scale_lookup, rfl, rfl⟩

/-- Witness for C4 at the concrete digit run `123456789012345`: the first
nine digits are retained and scale by one. -/
theorem secfrac_truncates_not_rounds_witness :
    time_secfrac ('.' :: ("123456789012345".toList ++ [])) = .ok (123456789, []) := by
  have h := secfrac_truncates_not_rounds.1 ("123456789012345".toList) []
    (by decide) (by decide) (by intro c hc; simp at hc)
  rw [h]
  rfl

/-- C10: whenever `time_secfrac` succeeds the nanosecond value is at most
999,999,999, and the failure branches of its scaling computation (the u32
parse, the table lookup, the checked multiplication, each mapped to
`OutOfRange`) are unreachable — the only failure it ever returns is the
bare grammar mismatch. -/
theorem secfrac_in_range_and_infallible :
    (∀ (input : List Char) (v : Nat) (rest : List Char),
      time_secfrac input = .ok (v, rest) → v ≤ 999999999) ∧
    (∀ (input : List Char) (e : PFail),
      time_secfrac input = .error e → e = ⟨true, none⟩) := by
  constructor
  · intro input v rest h
    rcases time_secfrac_cases input with he | ⟨v1, r1, hok, hb⟩
    · rw [he] at h
      exact absurd h (by simp)
    · rw [hok] at h
      obtain ⟨h1, _⟩ := Prod.mk.injEq .. ▸ Except.ok.injEq .. ▸ h
      omega
  · intro input e h
    rcases time_secfrac_cases input with he | ⟨v1, r1, hok, hb⟩
    · rw [he] at h
      exact (Except.error.injEq .. ▸ h).symm
    · rw [hok] at h
      exact absurd h (by simp)

/-- Witness for C10 at the run `.123456789012345`: the value returned is
within nanosecond range. -/
theorem secfrac_in_range_and_infallible_witness :
    123456789 ≤ 999999999 ∧ time_secfrac ('.' :: "123456789012345".toList) = .ok (123456789, []) := by
  refine ⟨?_, by rfl⟩
  exact secfrac_in_range_and_infallible.1 ('.' :: "123456789012345".toList) 123456789 [] (by rfl)

/-- C7: `date_time` maps its input to exactly one of the four variants —
the four sample inputs produce an offset date-time, a local date-time, a
local date and a local time with the expected fields — and every value it
produces satisfies the shape invariant: a date-only value has no time and
no offset, an offset implies a time is present, and at least one of date
and time is present. -/
theorem date_time_variant_shape :
    (∀ (input : List Char) (dt : Datetime) (rest : List Char),
      date_time input = .ok (dt, rest) →
        (dt.offset.isSome → dt.time.isSome) ∧
        (dt.date.isSome ∧ dt.time = none → dt.offset = none) ∧
        (dt.date.isSome ∨ dt.time.isSome)) ∧
    date_time ("1979-05-27T07:32:00Z".toList) =
      .ok (⟨some ⟨1979, 5, 27⟩, some ⟨7, 32, 0, 0⟩, some .Z⟩, []) ∧
    date_time ("1979-05-27T00:32:00".toList) =
      .ok (⟨some ⟨1979, 5, 27⟩, some ⟨0, 32, 0, 0⟩, none⟩, []) ∧
    date_time ("1979-05-27".toList) = .ok (⟨some ⟨1979, 5, 27⟩, none, none⟩, []) ∧
    date_time ("07:32:00".toList) = .ok (⟨none, some ⟨7, 32, 0, 0⟩, none⟩, []) := by
  refine ⟨?_, rfl, rfl, rfl, rfl⟩
  intro input dt rest h
  unfold date_time at h
  cases hfd : full_date input with
  | ok a =>
    obtain ⟨d, r1⟩ := a
    rw [hfd] at h
    simp only [pbind] at h
    cases htp : timePart r1 with
    | ok b =>
      obtain ⟨⟨t, o⟩, r2⟩ := b
      rw [htp] at h
      simp only [] at h
      obtain ⟨hdt, _⟩ := Prod.mk.injEq .. ▸ Except.ok.injEq .. ▸ h
      subst hdt
      simp
    | error e =>
      rw [htp] at h
      simp only [] at h
      by_cases hrec : e.recoverable
      · rw [if_pos hrec] at h
        simp only [] at h
        obtain ⟨hdt, _⟩ := Prod.mk.injEq .. ▸ Except.ok.injEq .. ▸ h
        subst hdt
        simp
      · simp only [Bool.not_eq_true] at hrec
        simp [hrec] at h
  | error e =>
    rw [hfd] at h
    simp only [pbind] at h
    by_cases hrec : e.recoverable
    · rw [if_pos hrec] at h
      cases hpt : partial_time input with
      | ok b =>
        obtain ⟨t, r2⟩ := b
        rw [hpt] at h
        simp only [pbind] at h
        obtain ⟨hdt, _⟩ := Prod.mk.injEq .. ▸ Except.ok.injEq .. ▸ h
        subst hdt
        simp
      | error e2 =>
        rw [hpt] at h
        simp only [pbind] at h
        exact absurd h (by simp)
    · simp only [Bool.not_eq_true] at hrec
      simp [hrec] at h

/-- Witness for C7 at the offset date-time sample: its shape satisfies the
invariant. -/
theorem date_time_variant_shape_witness :
    ((some (Offset.Z)).isSome → (some (Time.mk 7 32 0 0)).isSome) ∧
    ((some (Date.mk 1979 5 27)).isSome ∧ some (Time.mk 7 32 0 0) = none →
      some Offset.Z = none) ∧
    ((some (Date.mk 1979 5 27)).isSome ∨ (some (Time.mk 7 32 0 0)).isSome) := by
  exact date_time_variant_shape.1 ("1979-05-27T07:32:00Z".toList)
    ⟨some ⟨1979, 5, 27⟩, some ⟨7, 32, 0, 0⟩, some .Z⟩ [] (by rfl)

set_option maxRecDepth 1000000 in
/-- C3: the recursion bound is exact at 128.  `check_depth` passes exactly
below 128; every successful dotted-key parse has fewer than 128 segments
and a parsed list of 128 or more segments makes `key` fail with
`RecursionLimitExceeded` (an error, so no partial result); concretely a
127-segment path parses and a 128-segment one fails, and inline-table
nesting of depth 127 parses while depth 128 fails with
`RecursionLimitExceeded`. -/
theorem recursion_limit_exact_at_128 :
    (∀ n, check_depth n = .ok () ↔ n < 128) ∧
    (∀ (fuel : Nat) (input : List Char) (ks : List Key) (rest : List Char),
      keyP fuel input = .ok (ks, rest) → ks.length < 128) ∧
    (∀ (fuel : Nat) (input r1 : List Char) (k : Key) (ks : List Key) (r2 : List Char),
      segP input = .ok (k, r1) → keySegsLoop fuel r1 [k] = .ok (ks, r2) →
      ¬ ks.length < 128 →
      keyP fuel input = .error ⟨true, some .recursionLimitExceeded⟩) ∧
    parse_key_path path127txt = .ok (List.replicate 127 keyA) ∧
    parse_key_path path128txt = .error ⟨true, some .recursionLimitExceeded⟩ ∧
    valueP false (4 * (nestText 127).length + 8) 0 (nestText 127) = .ok (nestVal 127, []) ∧
    valueP false (4 * (nestText 128).length + 8) 0 (nestText 128) =
      .error ⟨false, some .recursionLimitExceeded⟩ := by
  refine ⟨?_, ?_, ?_, ?_, ?_, ?_, ?_⟩
  · intro n
    unfold check_depth
    by_cases h : n < 128
    · simp [h]
    · simp [h]
  · intro fuel input ks rest h
    unfold keyP at h
    cases hseg : segP input with
    | error e => rw [hseg] at h; simp [pbind] at h
    | ok a =>
      obtain ⟨k, r1⟩ := a
      rw [hseg] at h
      simp only [pbind] at h
      cases hloop : keySegsLoop fuel r1 [k] with
      | error e => rw [hloop] at h; simp at h
      | ok b =>
        obtain ⟨ks0, r2⟩ := b
        rw [hloop] at h
        simp only [] at h
        by_cases hd : ks0.length < 128
        · unfold check_depth at h
          rw [if_pos hd] at h
          simp only [] at h
          obtain ⟨h1, _⟩ := Prod.mk.injEq .. ▸ Except.ok.injEq .. ▸ h
          rw [← h1]
          exact hd
        · unfold check_depth at h
          rw [if_neg hd] at h
          simp at h
  · intro fuel input r1 k ks r2 hseg hloop hlen
    unfold keyP
    rw [hseg]
    simp only [pbind]
    rw [hloop]
    simp only []
    unfold check_depth
    rw [if_neg hlen]
  · rfl
  · rfl
  · rfl
  · rfl

/-- Witness for C3: a one-segment key path parses and its length is below
the ceiling. -/
theorem recursion_limit_exact_at_128_witness : ([keyA] : List Key).length < 128 := by
  exact recursion_limit_exact_at_128.2.1 4 ['a'] [keyA] [] (by rfl)

/-- C8: `to_repr` returns the stored representation when one is present;
otherwise it synthesizes the bare spelling when every character of the
decoded string lies in the unquoted-key alphabet and the string is
non-empty, and the single-quoted literal spelling (apostrophe, the string
verbatim, apostrophe — no escape processing) in every other case. -/
theorem to_repr_stored_or_synthesized :
    (∀ (k : Key) (r : List Char), k.repr = some r → k.to_repr = r) ∧
    (∀ k : Key, k.repr = none →
      ((k.key.all is_unquoted_char ∧ k.key ≠ []) → k.to_repr = k.key) ∧
      (¬ (k.key.all is_unquoted_char ∧ k.key ≠ []) →
        k.to_repr = sq :: k.key ++ [sq])) := by
  constructor
  · intro k r h
    unfold Key.to_repr
    rw [h]
  · intro k h
    constructor
    · intro hbare
      unfold Key.to_repr
      rw [h]
      simp only [to_key_repr]
      rw [if_pos hbare]
    · intro hq
      unfold Key.to_repr
      rw [h]
      simp only [to_key_repr]
      rw [if_neg hq]
      rfl

/-- Witness for C8: a stored representation is returned as is; a bare
decoded string synthesizes the bare spelling; a string with a space
synthesizes the quoted spelling. -/
theorem to_repr_stored_or_synthesized_witness :
    Key.to_repr ⟨['a'], some [sq, 'a', sq], Decor.empty⟩ = [sq, 'a', sq] ∧
    Key.to_repr ⟨['a', 'b'], none, Decor.empty⟩ = ['a', 'b'] ∧
    Key.to_repr ⟨['a', ' '], none, Decor.empty⟩ = [sq, 'a', ' ', sq] := by
  refine ⟨?_, ?_, ?_⟩
  · exact to_repr_stored_or_synthesized.1 ⟨['a'], some [sq, 'a', sq], Decor.empty⟩ _ rfl
  · exact (to_repr_stored_or_synthesized.2 ⟨['a', 'b'], none, Decor.empty⟩ rfl).1
      (by constructor <;> decide)
  · exact (to_repr_stored_or_synthesized.2 ⟨['a', ' '], none, Decor.empty⟩ rfl).2
      (by intro hc; exact absurd hc.1 (by decide))

/-- C9: `parse_key` parses exactly one simple key and requires the entire
input to be consumed: a successful `simple_key` with a non-empty remainder
makes `parse_key` fail, full consumption makes it succeed with the
recognized span as representation, and a `simple_key` failure propagates. -/
theorem parse_key_consumes_all :
    (∀ (input raw dec rest : List Char),
      simple_key input = .ok ((raw, dec), rest) → rest ≠ [] →
      ∃ e, parse_key input = .error e) ∧
    (∀ (input raw dec : List Char), simple_key input = .ok ((raw, dec), []) →
      parse_key input = .ok ⟨dec, some raw, Decor.empty⟩) ∧
    (∀ (input : List Char) (e : PFail), simple_key input = .error e →
      parse_key input = .error e) := by
  refine ⟨?_, ?_, ?_⟩
  · intro input raw dec rest h hne
    refine ⟨⟨true, none⟩, ?_⟩
    unfold parse_key finishP
    rw [h]
    cases rest with
    | nil => exact absurd rfl hne
    | cons c r => rfl
  · intro input raw dec h
    unfold parse_key finishP
    rw [h]
  · intro input e h
    unfold parse_key finishP
    rw [h]

/-- Witness for C9: the input `a.b` is a valid simple key `a` followed by
trailing text, and `parse_key` rejects it; the input `a` alone parses. -/
theorem parse_key_consumes_all_witness :
    (∃ e, parse_key ['a', '.', 'b'] = .error e) ∧
    parse_key ['a'] = .ok ⟨['a'], some ['a'], Decor.empty⟩ := by
  constructor
  · exact parse_key_consumes_all.1 ['a', '.', 'b'] ['a'] ['a'] ['.', 'b'] (by rfl) (by simp)
  · exact parse_key_consumes_all.2.1 ['a'] ['a'] ['a'] (by rfl)

/-- C6: key equality, ordering and hashing are functions of the decoded
string alone — representation and decor play no part — and consequently
dotted-key resolution looks segments up by decoded string only, so the
differently quoted spellings `'b'` and `"b"` reach the same child table
node instead of creating two. -/
theorem key_identity_is_decoded_string :
    (∀ a b : Key, Key.beq a b = true ↔ a.key = b.key) ∧
    (∀ a b c : Key, a.key = b.key →
      Key.beq a c = Key.beq b c ∧ Key.beq c a = Key.beq c b ∧
      Key.cmp a c = Key.cmp b c ∧ Key.cmp c a = Key.cmp c b ∧
      Key.hashInput a = Key.hashInput b) ∧
    (∀ (t : InlineTable) (k1 k2 : Key), k1.key = k2.key →
      entry_format_lookup t k1 = entry_format_lookup t k2) ∧
    parseInlineTable false uniInput = .ok uniExpected ∧
    uniExpected.items.len = 1 := by
  refine ⟨?_, ?_, ?_, ?_, rfl⟩
  · intro a b
    unfold Key.beq
    exact beq_iff_eq ..
  · intro a b c h
    unfold Key.beq Key.cmp Key.hashInput
    rw [h]
    exact ⟨rfl, rfl, rfl, rfl, rfl⟩
  · intro t k1 k2 h
    unfold entry_format_lookup
    rw [h]
  · rfl

/-- Witness for C6: two keys with the same decoded string but different
representations compare equal; the lookup probing with either is one and
the same. -/
theorem key_identity_is_decoded_string_witness :
    Key.beq ⟨['b'], some [sq, 'b', sq], Decor.empty⟩ ⟨['b'], some [dq, 'b', dq], Decor.empty⟩ =
      true ∧
    entry_format_lookup uniExpected ⟨['b'], some [sq, 'b', sq], Decor.empty⟩ =
      entry_format_lookup uniExpected ⟨['b'], some [dq, 'b', dq], Decor.empty⟩ := by
  constructor
  · exact (key_identity_is_decoded_string.1 _ _).mpr rfl
  · exact key_identity_is_decoded_string.2.2.1 uniExpected _ _ rfl

/-- C2: inserting a leaf pair whose decoded key is already present at the
same table level fails with a duplicate-key error and never overwrites;
a vacant decoded key appends the pair; this holds whatever the keys'
representations, and concretely the repeated-`hello` text fails with a
duplicate-key error on `hello`, the distinct-keys text parses, and a leaf
key repeating a dotted segment is likewise a duplicate. -/
theorem duplicate_leaf_key_is_error :
    (∀ (t : InlineTable) (fp : List Key) (kv : TableKeyValue) (entry : Key × Value),
      t.items.lookup kv.key.key = some entry →
      insertEntry false fp t [] 0 kv = .error (.duplicateKey kv.key.key)) ∧
    (∀ (t : InlineTable) (fp : List Key) (kv : TableKeyValue),
      t.items.lookup kv.key.key = none →
      insertEntry false fp t [] 0 kv =
        .ok (.mk (t.items.append1 kv.key.key kv.key kv.value) t.dotted t.preamble)) ∧
    parseInlineTable false dupInput =
      .error ⟨false, some (.duplicateKey ['h', 'e', 'l', 'l', 'o'])⟩ ∧
    (∃ t, parseInlineTable false okInput = .ok t) ∧
    parseInlineTable false dupMixInput = .error ⟨false, some (.duplicateKey ['a'])⟩ := by
  refine ⟨?_, ?_, rfl, ⟨_, rfl⟩, rfl⟩
  · intro t fp kv entry h
    unfold insertEntry
    rw [h]
  · intro t fp kv h
    unfold insertEntry
    rw [h]

/-- Witness for C2: inserting `a` into a one-entry table already holding
`a` is the duplicate-key error, whatever the spelling of either key. -/
theorem duplicate_leaf_key_is_error_witness :
    insertEntry false [] (.mk (.cons ['a'] keyA (.atom ['1'] Decor.empty) .nil) false [])
        [] 0 ⟨⟨['a'], some [sq, 'a', sq], Decor.empty⟩, .atom ['2'] Decor.empty⟩ =
      .error (.duplicateKey ['a']) := by
  exact duplicate_leaf_key_is_error.1
    (.mk (.cons ['a'] keyA (.atom ['1'] Decor.empty) .nil) false [])
    [] ⟨⟨['a'], some [sq, 'a', sq], Decor.empty⟩, .atom ['2'] Decor.empty⟩
    (keyA, .atom ['1'] Decor.empty) (by rfl)

/-- C5: during dotted-path resolution, a present intermediate segment
whose value is not an inline table fails with a type-conflict error
carrying the full key path, the index of the offending segment and the
type name of the value found; an absent segment creates a new child
inline table marked dotted and is descended into; concretely
`{a = 1, a.b = 2}` fails with the conflict at segment 0 of path `a` with
actual type `value`. -/
theorem dotted_descent_type_conflict :
    (∀ (t : InlineTable) (fp : List Key) (k : Key) (rest : List Key) (i : Nat)
        (kv : TableKeyValue) (k0 : Key) (v : Value),
      t.items.lookup k.key = some (k0, v) → (∀ c d, v ≠ .table c d) →
      insertEntry false fp t (k :: rest) i kv =
        .error (.extendWrongType (fp.map Key.key) i v.type_name)) ∧
    (∀ (t : InlineTable) (fp : List Key) (k : Key) (rest : List Key) (i : Nat)
        (kv : TableKeyValue) (child : InlineTable),
      t.items.lookup k.key = none →
      insertEntry false fp (.mk .nil true []) rest (i + 1) kv = .ok child →
      insertEntry false fp t (k :: rest) i kv =
        .ok (.mk (t.items.append1 k.key k (.table child Decor.empty)) t.dotted t.preamble)) ∧
    parseInlineTable false tcInput =
      .error ⟨false, some (.extendWrongType [['a']] 0 ['v', 'a', 'l', 'u', 'e'])⟩ := by
  refine ⟨?_, ?_, rfl⟩
  · intro t fp k rest i kv k0 v h hnt
    unfold insertEntry
    rw [h]
    cases v with
    | str dec raw d => rfl
    | atom raw d => rfl
    | table c d => exact absurd rfl (hnt c d)
  · intro t fp k rest i kv child h h2
    rw [insertEntry.eq_def]
    simp only []
    rw [h, h2]

/-- Witness for C5: on a one-entry table holding the scalar `a = 1`,
descending through `a` is the type conflict at index 0; on the empty
table, descending through `a` creates the dotted child. -/
theorem dotted_descent_type_conflict_witness :
    insertEntry false [keyA] (.mk (.cons ['a'] keyA (.atom ['1'] Decor.empty) .nil) false [])
        [keyA] 0 ⟨⟨['b'], some ['b'], Decor.empty⟩, .atom ['2'] Decor.empty⟩ =
      .error (.extendWrongType [['a']] 0 ['v', 'a', 'l', 'u', 'e']) ∧
    insertEntry false [keyA] InlineTable.new [keyA] 0
        ⟨⟨['b'], some ['b'], Decor.empty⟩, .atom ['2'] Decor.empty⟩ =
      .ok (.mk (.cons ['a'] keyA
            (.table (.mk (.cons ['b'] ⟨['b'], some ['b'], Decor.empty⟩
              (.atom ['2'] Decor.empty) .nil) true []) Decor.empty) .nil)
          false []) := by
  constructor
  · exact dotted_descent_type_conflict.1
      (.mk (.cons ['a'] keyA (.atom ['1'] Decor.empty) .nil) false [])
      [keyA] keyA [] 0 ⟨⟨['b'], some ['b'], Decor.empty⟩, .atom ['2'] Decor.empty⟩
      keyA (.atom ['1'] Decor.empty) (by rfl) (by intro c d h; cases h)
  · exact dotted_descent_type_conflict.2.1 InlineTable.new [keyA] keyA [] 0
      ⟨⟨['b'], some ['b'], Decor.empty⟩, .atom ['2'] Decor.empty⟩
      (.mk (.cons ['b'] ⟨['b'], some ['b'], Decor.empty⟩ (.atom ['2'] Decor.empty) .nil)
        true [])
      (by rfl) (by rfl)

/-! ## Soundness of the leaf parsers: whatever is consumed is exactly
what the parsed node re-serializes to -/

/-- The whitespace run splits its input. -/
theorem wsP_sound : ∀ i : List Char, (wsP i).1 ++ (wsP i).2 = i := by
  intro i
  induction i with
  | nil => rfl
  | cons c rest ih =>
    by_cases hc : isWsChar c
    · simp only [wsP, if_pos hc]
      cases hr : wsP rest with
      | mk a b =>
        rw [hr] at ih
        simp [ih]
    · simp [wsP, if_neg hc]

/-- The literal-string body scan splits its input at the closing quote. -/
theorem litChars_sound : ∀ (i s r : List Char), litChars i = some (s, r) →
    s ++ sq :: r = i := by
  intro i
  induction i with
  | nil => intro s r h; simp [litChars] at h
  | cons c rest ih =>
    intro s r h
    simp only [litChars] at h
    by_cases hc : c = sq
    · rw [if_pos hc] at h
      obtain ⟨rfl, rfl⟩ := Prod.mk.injEq .. ▸ Option.some.injEq .. ▸ h
      simp [hc]
    · rw [if_neg hc] at h
      by_cases hl : isLitChar c
      · rw [if_pos hl] at h
        cases hr : litChars rest with
        | none => rw [hr] at h; simp at h
        | some a =>
          obtain ⟨s1, r1⟩ := a
          rw [hr] at h
          simp only [Option.some.injEq] at h
          obtain ⟨rfl, rfl⟩ := Prod.mk.injEq .. ▸ h
          simp [ih s1 r1 hr]
      · rw [if_neg hl] at h
        simp at h

/-- The basic-string body scan splits its input at the closing quote
(recursive proof, the escape case stepping two characters at a time). -/
def basicChars_sound : ∀ (i raw dec r : List Char),
    basicChars i = some (raw, dec, r) → raw ++ dq :: r = i
  | [], raw, dec, r => by
    intro h
    simp [basicChars] at h
  | c :: rest, raw, dec, r => by
    intro h
    unfold basicChars at h
    by_cases hc : c = dq
    · rw [if_pos hc] at h
      obtain ⟨rfl, h2⟩ := Prod.mk.injEq .. ▸ Option.some.injEq .. ▸ h
      obtain ⟨rfl, rfl⟩ := Prod.mk.injEq .. ▸ h2
      simp [hc]
    · rw [if_neg hc] at h
      by_cases hb : c = bsl
      · rw [if_pos hb] at h
        cases rest with
        | nil => simp at h
        | cons e rest1 =>
          cases he : escChar e with
          | none => simp only [he] at h; simp at h
          | some d =>
            simp only [he] at h
            cases hr : basicChars rest1 with
            | none => rw [hr] at h; simp at h
            | some a =>
              obtain ⟨raw1, dec1, r1⟩ := a
              rw [hr] at h
              simp only [Option.some.injEq] at h
              obtain ⟨rfl, h2⟩ := Prod.mk.injEq .. ▸ h
              obtain ⟨rfl, rfl⟩ := Prod.mk.injEq .. ▸ h2
              simp [basicChars_sound rest1 raw1 dec1 r1 hr]
      · rw [if_neg hb] at h
        by_cases hbc : isBasicChar c
        · rw [if_pos hbc] at h
          cases hr : basicChars rest with
          | none => rw [hr] at h; simp at h
          | some a =>
            obtain ⟨raw1, dec1, r1⟩ := a
            rw [hr] at h
            simp only [Option.some.injEq] at h
            obtain ⟨rfl, h2⟩ := Prod.mk.injEq .. ▸ h
            obtain ⟨rfl, rfl⟩ := Prod.mk.injEq .. ▸ h2
            simp [basicChars_sound rest raw1 dec1 r1 hr]
        · rw [if_neg hbc] at h
          simp at h

/-- `literal_string` consumes exactly the raw span it returns. -/
theorem literal_string_sound (i raw dec r : List Char)
    (h : literal_string i = .ok ((raw, dec), r)) : raw ++ r = i := by
  cases i with
  | nil => simp [literal_string, gerr] at h
  | cons c rest =>
    simp only [literal_string] at h
    by_cases hc : c = sq
    · rw [if_pos hc] at h
      cases hl : litChars rest with
      | none => rw [hl] at h; simp [gerr] at h
      | some a =>
        obtain ⟨s, r1⟩ := a
        rw [hl] at h
        simp only [Except.ok.injEq, Prod.mk.injEq] at h
        obtain ⟨⟨hraw, hdec⟩, hr⟩ := h
        subst hraw
        subst hr
        have := litChars_sound rest s r1 hl
        simp [hc, ← this]
    · rw [if_neg hc] at h
      simp [gerr] at h

/-- `basic_string` consumes exactly the raw span it returns. -/
theorem basic_string_sound (i raw dec r : List Char)
    (h : basic_string i = .ok ((raw, dec), r)) : raw ++ r = i := by
  cases i with
  | nil => simp [basic_string, gerr] at h
  | cons c rest =>
    simp only [basic_string] at h
    by_cases hc : c = dq
    · rw [if_pos hc] at h
      cases hl : basicChars rest with
      | none => rw [hl] at h; simp [gerr] at h
      | some a =>
        obtain ⟨raw1, dec1, r1⟩ := a
        rw [hl] at h
        simp only [Except.ok.injEq, Prod.mk.injEq] at h
        obtain ⟨⟨hraw, hdec⟩, hr⟩ := h
        subst hraw
        subst hr
        have := basicChars_sound rest raw1 dec1 r1 hl
        simp [hc, ← this]
    · rw [if_neg hc] at h
      simp [gerr] at h

/-- `simple_key` consumes exactly the raw span it returns. -/
theorem simple_key_sound (i raw dec r : List Char)
    (h : simple_key i = .ok ((raw, dec), r)) : raw ++ r = i := by
  cases i with
  | nil => simp [simple_key, gerr] at h
  | cons c rest =>
    simp only [simple_key] at h
    by_cases hc : c = dq
    · rw [if_pos hc] at h
      exact basic_string_sound _ _ _ _ h
    · rw [if_neg hc] at h
      by_cases hs : c = sq
      · rw [if_pos hs] at h
        exact literal_string_sound _ _ _ _ h
      · rw [if_neg hs] at h
        simp only [unquoted_key, pbind] at h
        by_cases ht : (c :: rest).takeWhile is_unquoted_char = []
        · rw [if_pos ht] at h
          simp [gerr] at h
        · rw [if_neg ht] at h
          simp only [Except.ok.injEq, Prod.mk.injEq] at h
          obtain ⟨⟨hraw, hdec⟩, hr⟩ := h
          subst hraw
          subst hr
          exact List.takeWhile_append_dropWhile ..

/-- A key segment consumes exactly its re-serialization. -/
theorem segP_sound (i : List Char) (k : Key) (r : List Char)
    (h : segP i = .ok (k, r)) : segText k ++ r = i := by
  simp only [segP] at h
  cases hw1 : wsP i with
  | mk pre r1 =>
    rw [hw1] at h
    simp only [pbind] at h
    cases hsk : simple_key r1 with
    | error e => rw [hsk] at h; simp at h
    | ok a =>
      obtain ⟨⟨raw, dec⟩, r2⟩ := a
      rw [hsk] at h
      simp only [] at h
      cases hw2 : wsP r2 with
      | mk suf r3 =>
        rw [hw2] at h
        simp only [Except.ok.injEq] at h
        obtain ⟨rfl, rfl⟩ := Prod.mk.injEq .. ▸ h
        have e1 : pre ++ r1 = i := by
          have hh := wsP_sound i
          rw [hw1] at hh
          exact hh
        have e2 : raw ++ r2 = r1 := simple_key_sound _ _ _ _ hsk
        have e3 : suf ++ r3 = r2 := by
          have hh := wsP_sound r2
          rw [hw2] at hh
          exact hh
        simp only [segText, Option.getD]
        rw [← e1, ← e2, ← e3]
        simp

/-- The dotted-segment loop extends its accumulator and consumes exactly
the dotted continuation it appends. -/
theorem keySegsLoop_sound : ∀ (fuel : Nat) (i : List Char) (acc ks : List Key)
    (r : List Char), keySegsLoop fuel i acc = .ok (ks, r) →
    ∃ ks2, ks = acc ++ ks2 ∧ pathTailText ks2 ++ r = i := by
  intro fuel
  induction fuel with
  | zero => intro i acc ks r h; simp [keySegsLoop] at h
  | succ fuel ih =>
    intro i acc ks r h
    cases i with
    | nil =>
      simp only [keySegsLoop, Except.ok.injEq] at h
      obtain ⟨rfl, rfl⟩ := Prod.mk.injEq .. ▸ h
      exact ⟨[], by simp [pathTailText]⟩
    | cons c rest =>
      simp only [keySegsLoop] at h
      by_cases hc : c = '.'
      · rw [if_pos hc] at h
        cases hsp : segP rest with
        | ok a =>
          obtain ⟨k, r2⟩ := a
          rw [hsp] at h
          simp only [] at h
          obtain ⟨ks2, rfl, he⟩ := ih r2 (acc ++ [k]) ks r h
          refine ⟨k :: ks2, by simp, ?_⟩
          have hs := segP_sound rest k r2 hsp
          subst hc
          simp only [pathTailText, List.map_cons, List.flatten_cons, List.cons_append,
            List.append_assoc] at he ⊢
          rw [he, hs]
        | error e =>
          rw [hsp] at h
          simp only [] at h
          by_cases hrec : e.recoverable
          · rw [if_pos hrec] at h
            simp only [Except.ok.injEq] at h
            obtain ⟨rfl, rfl⟩ := Prod.mk.injEq .. ▸ h
            exact ⟨[], by simp [pathTailText]⟩
          · rw [if_neg hrec] at h
            simp at h
      · rw [if_neg hc] at h
        simp only [Except.ok.injEq] at h
        obtain ⟨rfl, rfl⟩ := Prod.mk.injEq .. ▸ h
        exact ⟨[], by simp [pathTailText]⟩

/-- A parsed key path is non-empty and consumes exactly its
re-serialization. -/
theorem keyP_sound (fuel : Nat) (i : List Char) (ks : List Key) (r : List Char)
    (h : keyP fuel i = .ok (ks, r)) : ks ≠ [] ∧ pathText ks ++ r = i := by
  simp only [keyP] at h
  cases hsp : segP i with
  | error e => rw [hsp] at h; simp [pbind] at h
  | ok a =>
    obtain ⟨k, r1⟩ := a
    rw [hsp] at h
    simp only [pbind] at h
    cases hloop : keySegsLoop fuel r1 [k] with
    | error e => rw [hloop] at h; simp at h
    | ok b =>
      obtain ⟨ks0, r2⟩ := b
      rw [hloop] at h
      simp only [] at h
      cases hcd : check_depth ks0.length with
      | error ce => rw [hcd] at h; simp at h
      | ok u =>
        rw [hcd] at h
        simp only [Except.ok.injEq, Prod.mk.injEq] at h
        obtain ⟨hks, hr⟩ := h
        subst hr
        subst hks
        obtain ⟨ks2, hkseq, he⟩ := keySegsLoop_sound fuel r1 [k] _ _ hloop
        subst hkseq
        refine ⟨by simp, ?_⟩
        have hs := segP_sound i k r1 hsp
        simp only [List.cons_append, List.nil_append, pathText]
        rw [List.append_assoc, he, hs]

/-- `splitLast` splits a list into its leading part and last element. -/
theorem splitLast_sound : ∀ (ks p : List Key) (k : Key),
    splitLast ks = some (p, k) → ks = p ++ [k] := by
  intro ks
  induction ks with
  | nil => intro p k h; simp [splitLast] at h
  | cons a rest ih =>
    intro p k h
    cases rest with
    | nil =>
      simp only [splitLast, Option.some.injEq] at h
      obtain ⟨rfl, rfl⟩ := Prod.mk.injEq .. ▸ h
      rfl
    | cons b rest1 =>
      simp only [splitLast] at h
      cases hs : splitLast (b :: rest1) with
      | none => rw [hs] at h; simp at h
      | some c =>
        obtain ⟨p1, last1⟩ := c
        rw [hs] at h
        simp only [Option.some.injEq, Prod.mk.injEq] at h
        obtain ⟨hp, hk⟩ := h
        subst hp
        subst hk
        have := ih p1 last1 hs
        simp [List.cons_append, ← this]

/-- Decorating keeps the value's core spelling. -/
theorem valueCore_decorated (v : Value) (p s : List Char) :
    valueCore (v.decorated p s) = valueCore v := by
  cases v <;> rfl

/-- Decorating sets the value's decor. -/
theorem decor_decorated (v : Value) (p s : List Char) :
    (v.decorated p s).decor = ⟨p, s⟩ := by
  cases v <;> rfl

/-- Decorating keeps a value a valid leaf. -/
theorem leafOK_decorated (v : Value) (p s : List Char) (h : leafOK v) :
    leafOK (v.decorated p s) := by
  cases v with
  | str dec raw d => trivial
  | atom raw d => trivial
  | table t d => exact h

/-! ## Rendering of strictly assembled tables -/

/-- A dotted continuation of a non-empty path is a dot before the full
path. -/
theorem pathTailText_append_last (p : List Key) (k : Key) :
    pathTailText (p ++ [k]) = '.' :: pathText (p ++ [k]) := by
  cases p with
  | nil => simp [pathTailText, pathText]
  | cons x xs => simp [pathTailText, pathText]

/-- The empty entry list renders to nothing. -/
theorem entryTexts_nil : entryTexts .nil = [] := rfl

/-- One step of `entryTexts`: the head entry's chunk before the rest. -/
theorem entryTexts_cons (s : List Char) (k : Key) (v : Value) (rest : Items) :
    entryTexts (.cons s k v rest) = entryChunk k v ++ entryTexts rest := by
  cases v with
  | str dec raw d => rfl
  | atom raw d => rfl
  | table c d => cases c; rfl

/-- Rendered entries of an appended entry list. -/
theorem entryTexts_append1 : ∀ (items : Items) (s : List Char) (k : Key) (v : Value),
    entryTexts (items.append1 s k v) = entryTexts items ++ entryChunk k v := by
  intro items
  induction items using Items.spineInd with
  | h0 =>
    intro s k v
    show entryTexts (.cons s k v .nil) = entryTexts .nil ++ entryChunk k v
    rw [entryTexts_cons, entryTexts_nil]
    simp
  | h1 s0 k0 v0 rest ih =>
    intro s k v
    show entryTexts (.cons s0 k0 v0 (rest.append1 s k v)) =
      entryTexts (.cons s0 k0 v0 rest) ++ entryChunk k v
    rw [entryTexts_cons, entryTexts_cons, ih, List.append_assoc]

/-- The chunk of a valid leaf entry: key, equals sign, decorated value. -/
theorem entryChunk_leaf (k : Key) (v : Value) (h : leafOK v) :
    entryChunk k v = [segText k ++ '=' :: valueDecorText v] := by
  cases v with
  | str dec raw d => rfl
  | atom raw d => rfl
  | table t d =>
    cases t with
    | mk ci cd cp =>
      have hcd : cd = false := h
      subst hcd
      rfl

/-- The chunk of a dotted child: the child's entries under the parent
segment and a dot. -/
theorem entryChunk_dotted (k : Key) (ci : Items) (cp : List Char) (d : Decor) :
    entryChunk k (.table (.mk ci true cp) d) =
      (entryTexts ci).map fun e => segText k ++ '.' :: e := rfl

/-- Rendering a constructed table: brace, comma-joined entries, preamble,
brace. -/
theorem renderTable_mk (items : Items) (dotted : Bool) (pre : List Char) :
    renderTable (.mk items dotted pre) =
      lbrace :: (joinComma (entryTexts items) ++ pre ++ [rbrace]) := rfl

/-- The core of a table value is its structural rendering. -/
theorem valueCore_table (t : InlineTable) (d : Decor) :
    valueCore (.table t d) = renderTable t := rfl

/-- A dotted path prepends its head segment to the rendered entry. -/
theorem entryText_cons (k : Key) (rest : List Key) (kv : TableKeyValue) :
    entryText (k :: rest, kv) = segText k ++ '.' :: entryText (rest, kv) := by
  simp only [entryText, List.cons_append, pathText, pathTailText_append_last,
    List.append_assoc]

/-- Strict insertion of one entry appends exactly that entry's rendering:
the dotted and preamble fields are untouched and the rendered entries gain
the entry's text at the end. -/
theorem insertEntry_strict_chain : ∀ (path : List Key) (t : InlineTable) (fp : List Key)
    (i : Nat) (kv : TableKeyValue) (t2 : InlineTable), leafOK kv.value →
    insertEntry true fp t path i kv = .ok t2 →
    t2.dotted = t.dotted ∧ t2.preamble = t.preamble ∧
    entryTexts t2.items = entryTexts t.items ++ [entryText (path, kv)] := by
  intro path
  induction path with
  | nil =>
    intro t fp i kv t2 hleaf h
    unfold insertEntry at h
    cases hl : t.items.lookup kv.key.key with
    | some entry => rw [hl] at h; simp at h
    | none =>
      rw [hl] at h
      simp only [Except.ok.injEq] at h
      subst h
      refine ⟨rfl, rfl, ?_⟩
      rw [show (InlineTable.mk (t.items.append1 kv.key.key kv.key kv.value)
            t.dotted t.preamble).items = t.items.append1 kv.key.key kv.key kv.value from rfl]
      rw [entryTexts_append1, entryChunk_leaf _ _ hleaf]
      simp [entryText, pathText, pathTailText]
  | cons k rest ih =>
    intro t fp i kv t2 hleaf h
    unfold insertEntry at h
    cases hl : t.items.lookup k.key with
    | some entry =>
      obtain ⟨k0, v⟩ := entry
      rw [hl] at h
      cases v with
      | str dec raw d => simp at h
      | atom raw d => simp at h
      | table c d => simp at h
    | none =>
      rw [hl] at h
      cases hrec : insertEntry true fp (.mk .nil true []) rest (i + 1) kv with
      | error e => rw [hrec] at h; simp at h
      | ok child =>
        rw [hrec] at h
        simp only [Except.ok.injEq] at h
        subst h
        obtain ⟨hd, hp, he⟩ := ih (.mk .nil true []) fp (i + 1) kv child hleaf hrec
        refine ⟨rfl, rfl, ?_⟩
        rw [show (InlineTable.mk (t.items.append1 k.key k (.table child Decor.empty))
              t.dotted t.preamble).items =
            t.items.append1 k.key k (.table child Decor.empty) from rfl]
        rw [entryTexts_append1]
        cases child with
        | mk ci cd cp =>
          have hcd : cd = true := hd
          subst hcd
          rw [entryChunk_dotted]
          have he2 : entryTexts ci = [entryText (rest, kv)] := by
            have hh := he
            simp only [InlineTable.items, entryTexts_nil] at hh
            simpa using hh
          rw [he2]
          simp [entryText_cons]

/-- Strict insertion of a list of entries appends exactly their
renderings. -/
theorem insertAll_strict_chain : ∀ (ps : List (List Key × TableKeyValue))
    (t t2 : InlineTable), (∀ p ∈ ps, leafOK p.2.value) →
    insertAll true t ps = .ok t2 →
    t2.dotted = t.dotted ∧ t2.preamble = t.preamble ∧
    entryTexts t2.items = entryTexts t.items ++ (ps.map entryText) := by
  intro ps
  induction ps with
  | nil =>
    intro t t2 _ h
    simp only [insertAll, Except.ok.injEq] at h
    subst h
    simp
  | cons p ps ih =>
    intro t t2 hleaf h
    obtain ⟨path, kv⟩ := p
    simp only [insertAll] at h
    cases h1 : insertEntry true path t path 0 kv with
    | error e => rw [h1] at h; simp at h
    | ok t1 =>
      rw [h1] at h
      obtain ⟨hd1, hp1, he1⟩ :=
        insertEntry_strict_chain path t path 0 kv t1
          (hleaf _ (List.mem_cons_self ..)) h1
      obtain ⟨hd2, hp2, he2⟩ := ih t1 t2 (fun q hq => hleaf q (List.mem_cons_of_mem _ hq)) h
      refine ⟨by rw [hd2, hd1], by rw [hp2, hp1], ?_⟩
      rw [he2, he1]
      simp

/-- A strictly assembled table renders as its opening brace, its entries'
renderings joined by commas, the preamble and the closing brace. -/
theorem table_from_pairs_strict_render (ps : List (List Key × TableKeyValue))
    (pre : List Char) (t : InlineTable) (hleaf : ∀ p ∈ ps, leafOK p.2.value)
    (h : table_from_pairs true ps pre = .ok t) :
    t.dotted = false ∧ t.preamble = pre ∧
    renderTable t = lbrace :: (joinComma (ps.map entryText) ++ pre ++ [rbrace]) := by
  unfold table_from_pairs at h
  obtain ⟨hd, hp, he⟩ := insertAll_strict_chain ps (.mk .nil false pre) t hleaf h
  refine ⟨hd, hp, ?_⟩
  cases t with
  | mk items dotted preamble =>
    have hp2 : preamble = pre := hp
    simp only [InlineTable.items, entryTexts_nil, List.nil_append] at he
    rw [renderTable_mk, he, hp2]

/-- A successful strict insertion is also a successful source (lax)
insertion with the same result. -/
theorem insertEntry_strict_to_lax : ∀ (path : List Key) (t : InlineTable) (fp : List Key)
    (i : Nat) (kv : TableKeyValue) (t2 : InlineTable),
    insertEntry true fp t path i kv = .ok t2 →
    insertEntry false fp t path i kv = .ok t2 := by
  intro path
  induction path with
  | nil =>
    intro t fp i kv t2 h
    cases hl : t.items.lookup kv.key.key with
    | some entry =>
      unfold insertEntry at h
      rw [hl] at h
      simp at h
    | none =>
      unfold insertEntry at h ⊢
      rw [hl] at h ⊢
      exact h
  | cons k rest ih =>
    intro t fp i kv t2 h
    cases hl : t.items.lookup k.key with
    | some entry =>
      obtain ⟨k0, v⟩ := entry
      unfold insertEntry at h
      rw [hl] at h
      cases v with
      | str dec raw d => simp at h
      | atom raw d => simp at h
      | table c d => simp at h
    | none =>
      unfold insertEntry at h ⊢
      rw [hl] at h ⊢
      cases hrec : insertEntry true fp (.mk .nil true []) rest (i + 1) kv with
      | error e => rw [hrec] at h; simp at h
      | ok child =>
        rw [hrec] at h
        rw [ih (.mk .nil true []) fp (i + 1) kv child hrec]
        exact h

/-- A successful strict assembly is also a successful source (lax)
assembly with the same result. -/
theorem table_from_pairs_strict_to_lax (ps : List (List Key × TableKeyValue))
    (pre : List Char) (t : InlineTable)
    (h : table_from_pairs true ps pre = .ok t) :
    table_from_pairs false ps pre = .ok t := by
  unfold table_from_pairs at h ⊢
  generalize hroot : (InlineTable.mk .nil false pre) = root at h ⊢
  clear hroot
  induction ps generalizing root with
  | nil => exact h
  | cons p ps ih =>
    obtain ⟨path, kv⟩ := p
    simp only [insertAll] at h ⊢
    cases h1 : insertEntry true path root path 0 kv with
    | error e => rw [h1] at h; simp at h
    | ok t1 =>
      rw [h1] at h
      rw [insertEntry_strict_to_lax path root path 0 kv t1 h1]
      exact ih t1 h

/-! ## Parser soundness: a strict parse is also a source (lax) parse, and
what was consumed is exactly the re-serialization of the result -/

/-- Soundness statement for `valueP` at a given fuel. -/
def SVal (fuel : Nat) : Prop :=
  ∀ (check : Nat) (input : List Char) (v : Value) (rest : List Char),
    valueP true fuel check input = .ok (v, rest) →
    valueP false fuel check input = .ok (v, rest) ∧ v.decor = Decor.empty ∧
      leafOK v ∧ valueCore v ++ rest = input

/-- Soundness statement for `inlineBodyP` at a given fuel. -/
def SBody (fuel : Nat) : Prop :=
  ∀ (check : Nat) (input : List Char) (t : InlineTable) (rest : List Char),
    inlineBodyP true fuel check input = .ok (t, rest) →
    inlineBodyP false fuel check input = .ok (t, rest) ∧ t.dotted = false ∧
      renderTable t ++ rest = lbrace :: input

/-- Soundness statement for `keyvalsP` at a given fuel. -/
def SKvs (fuel : Nat) : Prop :=
  ∀ (check : Nat) (input : List Char) (ps : List (List Key × TableKeyValue))
    (rest : List Char),
    keyvalsP true fuel check input = .ok (ps, rest) →
    keyvalsP false fuel check input = .ok (ps, rest) ∧
      (∀ p ∈ ps, leafOK p.2.value) ∧
      joinComma (ps.map entryText) ++ rest = input

/-- Soundness statement for `keyvalsTailP` at a given fuel. -/
def SKvt (fuel : Nat) : Prop :=
  ∀ (check : Nat) (input : List Char) (acc ps : List (List Key × TableKeyValue))
    (rest : List Char),
    keyvalsTailP true fuel check input acc = .ok (ps, rest) →
    keyvalsTailP false fuel check input acc = .ok (ps, rest) ∧
      ∃ ps2, ps = acc ++ ps2 ∧ (∀ p ∈ ps2, leafOK p.2.value) ∧
        (ps2.map fun p => ',' :: entryText p).flatten ++ rest = input

/-- Soundness statement for `keyvalP` at a given fuel. -/
def SKv (fuel : Nat) : Prop :=
  ∀ (check : Nat) (input : List Char) (p : List Key × TableKeyValue)
    (rest : List Char),
    keyvalP true fuel check input = .ok (p, rest) →
    keyvalP false fuel check input = .ok (p, rest) ∧ leafOK p.2.value ∧
      entryText p ++ rest = input

/-- Recoverable-failure bridge for `keyval`: a recoverable strict failure
is the same failure of the source parser (the strict device only ever
fails unrecoverably, behind `cut`). -/
def SKvE (fuel : Nat) : Prop :=
  ∀ (check : Nat) (input : List Char) (e : PFail),
    keyvalP true fuel check input = .error e → e.recoverable = true →
    keyvalP false fuel check input = .error e

/-- All six statements hold at fuel zero: the parser only returns the
fuel-exhaustion failure, which is unrecoverable. -/
theorem sAll_zero : SVal 0 ∧ SBody 0 ∧ SKvs 0 ∧ SKvt 0 ∧ SKv 0 ∧ SKvE 0 := by
  refine ⟨?_, ?_, ?_, ?_, ?_, ?_⟩
  · intro check input v rest h
    unfold valueP at h
    simp at h
  · intro check input t rest h
    unfold inlineBodyP at h
    simp at h
  · intro check input ps rest h
    unfold keyvalsP at h
    simp at h
  · intro check input acc ps rest h
    unfold keyvalsTailP at h
    simp at h
  · intro check input p rest h
    unfold keyvalP at h
    simp at h
  · intro check input e h hrec
    unfold keyvalP at h
    simp only [Except.error.injEq] at h
    subst h
    simp at hrec

/-- The recoverable-failure bridge at a successor fuel: recoverable
failures of `keyval` arise only before the `cut`, in the key parser,
which ignores the strict flag. -/
theorem skvE_step (fuel : Nat) : SKvE (fuel + 1) := by
  intro check input e h hrec
  unfold keyvalP at h ⊢
  cases hk : keyP (input.length + 1) input with
  | error e2 =>
    rw [hk] at h
    exact h
  | ok a =>
    obtain ⟨ks, r1⟩ := a
    rw [hk] at h
    cases r1 with
    | nil =>
      simp only [] at h
      simp only [Except.error.injEq] at h
      subst h
      simp at hrec
    | cons c r2 =>
      simp only [] at h
      by_cases hc : c = '='
      · rw [if_pos hc] at h
        cases hv : valueP true fuel check (wsP r2).2 with
        | error e2 =>
          rw [show valueP true fuel check (wsP r2).2 = Except.error e2 from hv] at h
          simp only [Except.error.injEq] at h
          subst h
          simp at hrec
        | ok a2 =>
          obtain ⟨v, r4⟩ := a2
          rw [show valueP true fuel check (wsP r2).2 = Except.ok (v, r4) from hv] at h
          cases hsl : splitLast ks with
          | some pk =>
            obtain ⟨path, k⟩ := pk
            rw [hsl] at h
            simp at h
          | none =>
            rw [hsl] at h
            simp only [Except.error.injEq] at h
            subst h
            simp at hrec
      · rw [if_neg hc] at h
        simp only [Except.error.injEq] at h
        subst h
        simp at hrec

/-- `valueP` soundness at a successor fuel. -/
theorem sval_step (fuel : Nat) (hB : SBody fuel) : SVal (fuel + 1) := by
  intro check input v rest h
  unfold valueP at h ⊢
  cases input with
  | nil => simp [gerr] at h
  | cons c cs =>
    simp only [] at h ⊢
    by_cases hdq : c = dq
    · rw [if_pos hdq] at h ⊢
      cases hbs : basic_string (c :: cs) with
      | error e =>
        rw [hbs] at h
        simp [pbind] at h
      | ok a =>
        obtain ⟨⟨raw, dec⟩, r⟩ := a
        rw [hbs] at h
        simp only [pbind, Except.ok.injEq, Prod.mk.injEq] at h
        obtain ⟨hv, hr⟩ := h
        subst hv
        subst hr
        refine ⟨rfl, rfl, trivial, ?_⟩
        exact basic_string_sound _ _ _ _ hbs
    · rw [if_neg hdq] at h ⊢
      by_cases hsq : c = sq
      · rw [if_pos hsq] at h ⊢
        cases hls : literal_string (c :: cs) with
        | error e =>
          rw [hls] at h
          simp [pbind] at h
        | ok a =>
          obtain ⟨⟨raw, dec⟩, r⟩ := a
          rw [hls] at h
          simp only [pbind, Except.ok.injEq, Prod.mk.injEq] at h
          obtain ⟨hv, hr⟩ := h
          subst hv
          subst hr
          refine ⟨rfl, rfl, trivial, ?_⟩
          exact literal_string_sound _ _ _ _ hls
      · rw [if_neg hsq] at h ⊢
        by_cases hlb : c = lbrace
        · rw [if_pos hlb] at h ⊢
          cases hbody : inlineBodyP true fuel check cs with
          | error e =>
            rw [hbody] at h
            simp at h
          | ok a =>
            obtain ⟨t, r⟩ := a
            rw [hbody] at h
            simp only [Except.ok.injEq, Prod.mk.injEq] at h
            obtain ⟨hv, hr⟩ := h
            subst hv
            subst hr
            obtain ⟨hlax, hdot, hrender⟩ := hB check cs t r hbody
            rw [hlax]
            refine ⟨rfl, rfl, hdot, ?_⟩
            rw [valueCore_table, hrender, hlb]
        · rw [if_neg hlb] at h ⊢
          by_cases ht : (c :: cs).takeWhile isAtomChar = []
          · rw [if_pos ht] at h
            simp [gerr] at h
          · rw [if_neg ht] at h ⊢
            simp only [Except.ok.injEq, Prod.mk.injEq] at h
            obtain ⟨hv, hr⟩ := h
            subst hv
            subst hr
            refine ⟨rfl, rfl, trivial, ?_⟩
            exact List.takeWhile_append_dropWhile ..

/-- Decorating renders as the decor around the core. -/
theorem valueDecorText_decorated (v : Value) (p s : List Char) :
    valueDecorText (v.decorated p s) = p ++ valueCore v ++ s := by
  simp [valueDecorText, decor_decorated, valueCore_decorated]

/-- `keyvalP` soundness at a successor fuel. -/
theorem skv_step (fuel : Nat) (hV : SVal fuel) : SKv (fuel + 1) := by
  intro check input p rest h
  unfold keyvalP at h
  cases hk : keyP (input.length + 1) input with
  | error e2 =>
    rw [hk] at h
    simp at h
  | ok a =>
    obtain ⟨ks, r1⟩ := a
    rw [hk] at h
    cases r1 with
    | nil =>
      simp only [] at h
      simp at h
    | cons c r2 =>
      simp only [] at h
      by_cases hc : c = '='
      · rw [if_pos hc] at h
        cases hv : valueP true fuel check (wsP r2).2 with
        | error e2 =>
          rw [show valueP true fuel check (wsP r2).2 = Except.error e2 from hv] at h
          simp at h
        | ok a2 =>
          obtain ⟨v, r4⟩ := a2
          rw [show valueP true fuel check (wsP r2).2 = Except.ok (v, r4) from hv] at h
          cases hsl : splitLast ks with
          | none =>
            rw [hsl] at h
            simp at h
          | some pk =>
            obtain ⟨path, k⟩ := pk
            rw [hsl] at h
            simp only [Except.ok.injEq, Prod.mk.injEq] at h
            obtain ⟨hp, hr⟩ := h
            obtain ⟨hlaxv, hdec, hleafv, hcore⟩ := hV check (wsP r2).2 v r4 hv
            refine ⟨?_, ?_, ?_⟩
            · unfold keyvalP
              rw [hk]
              simp only []
              rw [if_pos hc]
              rw [show valueP false fuel check (wsP r2).2 = Except.ok (v, r4) from hlaxv]
              rw [hsl]
              simp only []
              rw [hp, hr]
            · rw [← hp]
              exact leafOK_decorated v _ _ hleafv
            · rw [← hp, ← hr]
              have hks := keyP_sound _ _ _ _ hk
              have hsplit := splitLast_sound ks path k hsl
              have hw2 := wsP_sound r2
              have hw4 := wsP_sound r4
              simp only [entryText, valueDecorText_decorated]
              rw [← hsplit, ← hks.2]
              subst hc
              simp only [List.append_assoc, List.cons_append]
              rw [hw4, hcore, hw2]
      · rw [if_neg hc] at h
        simp at h

/-- `keyvalsTailP` soundness at a successor fuel. -/
theorem skvt_step (fuel : Nat) (hKv : SKv fuel) (hKvE : SKvE fuel) (hT : SKvt fuel) :
    SKvt (fuel + 1) := by
  intro check input acc ps rest h
  unfold keyvalsTailP at h
  cases input with
  | nil =>
    simp only [Except.ok.injEq, Prod.mk.injEq] at h
    obtain ⟨hps, hrest⟩ := h
    subst hps
    subst hrest
    refine ⟨by unfold keyvalsTailP; rfl, [], by simp, by simp, by simp⟩
  | cons c r1 =>
    simp only [] at h
    by_cases hc : c = ','
    · rw [if_pos hc] at h
      cases hkv : keyvalP true fuel check r1 with
      | ok a =>
        obtain ⟨p, r2⟩ := a
        rw [hkv] at h
        obtain ⟨hlaxkv, hleafp, htextp⟩ := hKv check r1 p r2 hkv
        obtain ⟨hlaxtail, ps2, hps, hleaf2, htext2⟩ := hT check r2 (acc ++ [p]) ps rest h
        refine ⟨?_, p :: ps2, ?_, ?_, ?_⟩
        · unfold keyvalsTailP
          simp only []
          rw [if_pos hc, hlaxkv]
          simp only []
          exact hlaxtail
        · rw [hps]
          simp
        · intro q hq
          rcases List.mem_cons.mp hq with rfl | hq2
          · exact hleafp
          · exact hleaf2 q hq2
        · simp only [List.map_cons, List.flatten_cons, List.cons_append, List.append_assoc]
          rw [htext2, htextp, hc]
      | error e =>
        rw [hkv] at h
        simp only [] at h
        by_cases hrec : e.recoverable
        · rw [if_pos hrec] at h
          simp only [Except.ok.injEq, Prod.mk.injEq] at h
          obtain ⟨hps, hrest⟩ := h
          subst hps
          subst hrest
          refine ⟨?_, [], by simp, by simp, by simp⟩
          unfold keyvalsTailP
          simp only []
          rw [if_pos hc, hKvE check r1 e hkv hrec]
          simp only []
          rw [if_pos hrec]
        · rw [if_neg hrec] at h
          simp at h
    · rw [if_neg hc] at h
      simp only [Except.ok.injEq, Prod.mk.injEq] at h
      obtain ⟨hps, hrest⟩ := h
      subst hps
      subst hrest
      refine ⟨?_, [], by simp, by simp, by simp⟩
      unfold keyvalsTailP
      simp only []
      rw [if_neg hc]

/-- `keyvalsP` soundness at a successor fuel. -/
theorem skvs_step (fuel : Nat) (hKv : SKv fuel) (hKvE : SKvE fuel) (hT : SKvt fuel) :
    SKvs (fuel + 1) := by
  intro check input ps rest h
  unfold keyvalsP at h
  cases hkv : keyvalP true fuel check input with
  | error e =>
    rw [hkv] at h
    simp only [] at h
    by_cases hrec : e.recoverable
    · rw [if_pos hrec] at h
      simp only [Except.ok.injEq, Prod.mk.injEq] at h
      obtain ⟨hps, hrest⟩ := h
      subst hps
      subst hrest
      refine ⟨?_, by simp, by simp [joinComma]⟩
      unfold keyvalsP
      rw [hKvE check input e hkv hrec]
      simp only []
      rw [if_pos hrec]
    · rw [if_neg hrec] at h
      simp at h
  | ok a =>
    obtain ⟨p, r⟩ := a
    rw [hkv] at h
    obtain ⟨hlaxkv, hleafp, htextp⟩ := hKv check input p r hkv
    obtain ⟨hlaxtail, ps2, hps, hleaf2, htext2⟩ := hT check r [p] ps rest h
    subst hps
    refine ⟨?_, ?_, ?_⟩
    · unfold keyvalsP
      rw [hlaxkv]
      simp only []
      exact hlaxtail
    · intro q hq
      rcases List.mem_append.mp hq with hq1 | hq2
      · rw [List.mem_singleton.mp hq1]
        exact hleafp
      · exact hleaf2 q hq2
    · simp only [List.singleton_append, List.map_cons, joinComma, List.map_map,
        List.append_assoc]
      have hmm : (List.map ((fun e => ',' :: e) ∘ entryText) ps2).flatten ++ rest = r :=
        htext2
      rw [hmm, htextp]

/-- `inlineBodyP` soundness at a successor fuel. -/
theorem sbody_step (fuel : Nat) (hK : SKvs fuel) : SBody (fuel + 1) := by
  intro check input t rest h
  unfold inlineBodyP at h
  cases hrc : recursing check with
  | error e =>
    rw [hrc] at h
    simp at h
  | ok check1 =>
    rw [hrc] at h
    simp only [] at h
    cases hks : keyvalsP true fuel check1 input with
    | error e =>
      rw [hks] at h
      simp at h
    | ok a =>
      obtain ⟨ps, r1⟩ := a
      rw [hks] at h
      simp only [] at h
      cases htf : table_from_pairs true ps (wsP r1).1 with
      | error ce =>
        rw [show table_from_pairs true ps (wsP r1).1 = Except.error ce from htf] at h
        simp at h
      | ok t0 =>
        rw [show table_from_pairs true ps (wsP r1).1 = Except.ok t0 from htf] at h
        cases hr2 : (wsP r1).2 with
        | nil =>
          rw [hr2] at h
          simp at h
        | cons c r3 =>
          rw [hr2] at h
          simp only [] at h
          by_cases hc : c = rbrace
          · rw [if_pos hc] at h
            simp only [Except.ok.injEq, Prod.mk.injEq] at h
            obtain ⟨ht0, hrr⟩ := h
            obtain ⟨hlaxks, hleafs, htext⟩ := hK check1 input ps r1 hks
            have hlaxtf := table_from_pairs_strict_to_lax ps (wsP r1).1 t0 htf
            obtain ⟨hdot, hpre, hrender⟩ :=
              table_from_pairs_strict_render ps (wsP r1).1 t0 hleafs htf
            refine ⟨?_, by rw [← ht0]; exact hdot, ?_⟩
            · unfold inlineBodyP
              rw [hrc]
              simp only []
              rw [hlaxks]
              simp only []
              rw [hlaxtf, hr2]
              simp only []
              rw [if_pos hc, ht0, hrr]
            · rw [← ht0, ← hrr, hrender]
              have hw := wsP_sound r1
              rw [hr2] at hw
              subst hc
              simp only [List.cons_append, List.append_assoc, List.nil_append,
                List.cons.injEq, true_and]
              rw [show (wsP r1).1 ++ (rbrace :: r3) = r1 from hw]
              exact htext
          · rw [if_neg hc] at h
            simp at h

/-- Soundness of every parser at every fuel: a successful strict parse is
the same successful source parse, and what was consumed is exactly the
re-serialization of the parse result. -/
theorem parserSound : ∀ fuel, SVal fuel ∧ SBody fuel ∧ SKvs fuel ∧ SKvt fuel ∧
    SKv fuel ∧ SKvE fuel := by
  intro fuel
  induction fuel with
  | zero => exact sAll_zero
  | succ f ih =>
    obtain ⟨hV, hB, hKs, hT, hKv, hKvE⟩ := ih
    exact ⟨sval_step f hB, sbody_step f hKs, skvs_step f hKv hKvE hT,
      skvt_step f hKv hKvE hT, skv_step f hV, skvE_step f⟩

/-- C1 (amended): for every inline-table text whose parse also passes the
strict assembler — no two entries share a decoded first path segment and
no entry extends an already-existing child, which covers `{}`, `{   }`,
every quoting style, and dotted entries with distinct segments —
re-serializing the source parser's result reproduces the input
byte-for-byte, with per-entry whitespace kept in decor and the trailing
whitespace kept as the preamble; the listed sample texts round-trip. -/
theorem inline_roundtrip_amended :
    (∀ (fuel check : Nat) (s : List Char) (t : InlineTable) (rest : List Char),
      inline_tableP true fuel check s = .ok (t, rest) →
      inline_tableP false fuel check s = .ok (t, rest) ∧ renderTable t ++ rest = s) ∧
    (∀ (s : List Char) (t : InlineTable),
      parseInlineTable true s = .ok t →
      parseInlineTable false s = .ok t ∧ renderTable t = s) ∧
    roundTripInline emptyTblInput = some emptyTblInput ∧
    roundTripInline spacesTblInput = some spacesTblInput ∧
    roundTripInline okInput = some okInput ∧
    roundTripInline dottedTblInput = some dottedTblInput := by
  have main : ∀ (fuel check : Nat) (s : List Char) (t : InlineTable) (rest : List Char),
      inline_tableP true fuel check s = .ok (t, rest) →
      inline_tableP false fuel check s = .ok (t, rest) ∧ renderTable t ++ rest = s := by
    intro fuel check s t rest h
    unfold inline_tableP at h ⊢
    cases s with
    | nil => simp [gerr] at h
    | cons c cs =>
      simp only [] at h ⊢
      by_cases hc : c = lbrace
      · rw [if_pos hc] at h ⊢
        obtain ⟨hlax, _, hrender⟩ := (parserSound fuel).2.1 check cs t rest h
        refine ⟨hlax, ?_⟩
        rw [hrender, hc]
      · rw [if_neg hc] at h
        simp [gerr] at h
  refine ⟨main, ?_, by rfl, by rfl, by rfl, by rfl⟩
  intro s t h
  unfold parseInlineTable finishP at h ⊢
  cases hp : inline_tableP true (4 * s.length + 8) 0 s with
  | error e =>
    rw [hp] at h
    simp at h
  | ok a =>
    obtain ⟨t0, r0⟩ := a
    rw [hp] at h
    cases r0 with
    | nil =>
      simp only [Except.ok.injEq] at h
      subst h
      obtain ⟨hlax, hrender⟩ := main (4 * s.length + 8) 0 s t0 [] hp
      rw [hlax]
      simpa using hrender
    | cons c r1 => simp at h

/-- Witness for C1 (amended) at the text `{   }`: the source parse result
and its byte-exact re-serialization. -/
theorem inline_roundtrip_amended_witness :
    parseInlineTable false spacesTblInput = .ok (.mk .nil false [' ', ' ', ' ']) ∧
    renderTable (.mk .nil false [' ', ' ', ' ']) = spacesTblInput := by
  exact inline_roundtrip_amended.2.1 spacesTblInput (.mk .nil false [' ', ' ', ' ']) (by rfl)

/-- C1 (counterexample): the round-trip claim fails as universally stated.
`{a.b = 1,  a.c = 2}` parses successfully but re-serializes differently
(the shared segment `a` keeps only its first-seen spelling), and the text
with a single space after the comma parses to the very same tree, so no
re-serialization can reproduce both inputs. -/
theorem inline_roundtrip_counterexample :
    (roundTripInline c1CexInput).isSome = true ∧
    roundTripInline c1CexInput ≠ some c1CexInput ∧
    parseInlineTable false c1CexInput = parseInlineTable false c1CexInput2 ∧
    c1CexInput ≠ c1CexInput2 := by
  refine ⟨by rfl, by decide, by rfl, by decide⟩

end Toml
